import Mathlib

/-!
Shallow embedding of `src/Python2/Data_Structures/b_plus_tree.py`.

A `BPlusNode` is either a leaf carrying keys or an internal node carrying
keys and children (the Python class uses a `leaf` flag; the two shapes are
the two constructors here).  Python's in-place mutation becomes functions
returning the updated node.  Machine integers are `Int` (Python ints are
unbounded).  Out-of-range list subscripts (Python `IndexError`) are modelled
with `Option`/explicit `crash` results: `delete` for deletion and
`insertNonFullM`/`insertM` for insertion, the latter proved to agree with
the total model `insertNonFull`/`insert` (which uses `getD` defaults) on
every path that provably stays in range — well-formed trees and fresh
keys.

The leaf chain (`next` pointers): `_split_child` splices a new sibling
right after the node it split off from, and `_merge` sets
`child.next = sibling.next` while removing `sibling` from the parent, so
the chain always coincides with the left-to-right order of the leaves of
the tree.  The chain is therefore represented by that order (`leafLists`),
and `range_query`'s chain walk by a scan over the suffix of `leafLists`
starting at the leaf that `_find_leaf` returns.

Recursive calls that descend into a child are given a `fuel` argument so
that all definitions are structurally recursive (hence kernel-computable);
the public wrappers pass fuel derived from the tree height, which is shown
(`insert`) / checked on the concrete runs (`delete`) to be sufficient.
-/

set_option maxHeartbeats 2000000

namespace BPT

/-- Insert `a` at position `n` (Python `list.insert(n, a)`; clamps to the end
when `n` exceeds the length, as Python does). -/
def insAt (n : Nat) (a : α) (l : List α) : List α :=
  match n, l with
  | 0, l => a :: l
  | _+1, [] => [a]
  | n+1, x :: xs => x :: insAt n a xs

/-- The index computed by the right-to-left scan in `_insert_non_full`
(`i = len(keys)-1; while i >= 0 and k < keys[i]: i -= 1; i += 1`):
one past the last index whose key is `≤ k`, and `0` if there is none. -/
def splitPos (k : Int) : List Int → Nat
  | [] => 0
  | x :: xs =>
    let p := splitPos k xs
    if p = 0 then (if k < x then 0 else 1) else p + 1

/-- The index computed by the left-to-right scan used in `_search_internal`,
`_delete_internal` and `_find_leaf`
(`i = 0; while i < len(keys) and k > keys[i]: i += 1`):
the first index whose key is `≥ k`, and `len keys` if there is none. -/
def leftScan (k : Int) : List Int → Nat
  | [] => 0
  | x :: xs => if k > x then leftScan k xs + 1 else 0

/-- Sorted insertion of `k` into a leaf's key list: the Python shift loop
appends a slot and shifts keys `> k` right, which places `k` right after the
last key `≤ k` — position `splitPos k ks`. -/
def insertKey (k : Int) (ks : List Int) : List Int :=
  ks.take (splitPos k ks) ++ k :: ks.drop (splitPos k ks)

/-- A node of the B+ tree (`BPlusNode`): `leaf` keeps `keys`, `node` keeps
`keys` and `children`.  The `next` chain is represented by left-to-right
leaf order (see the file comment). -/
inductive BNode where
  | leaf (keys : List Int)
  | node (keys : List Int) (children : List BNode)

def keysOf : BNode → List Int
  | .leaf ks => ks
  | .node ks _ => ks

def childrenOf : BNode → List BNode
  | .leaf _ => []
  | .node _ cs => cs

def isLeaf : BNode → Bool
  | .leaf _ => true
  | .node _ _ => false

mutual
def heightB : BNode → Nat
  | .leaf _ => 0
  | .node _ cs => heightL cs + 1
def heightL : List BNode → Nat
  | [] => 0
  | c :: cs => max (heightB c) (heightL cs)
end

mutual
/-- The key lists of the leaves in left-to-right order — the leaf chain. -/
def leafLists : BNode → List (List Int)
  | .leaf ks => [ks]
  | .node _ cs => leafListsL cs
def leafListsL : List BNode → List (List Int)
  | [] => []
  | c :: cs => leafLists c ++ leafListsL cs
end

/-- All keys stored in leaves, in chain order. -/
def chainKeys (x : BNode) : List Int := (leafLists x).flatten

/-- `BPlusTree._split_child(x, i)`: splits the full child `y = children[i]`.
`z` gets keys `t..` (`y.keys[t:]`), `y` keeps keys `0..t-1` (`y.keys[:t]`),
the copy of `y.keys[t-1]` is inserted into the parent's keys at `i` and `z`
into the parent's children at `i+1`; for an internal `y` the children split
`[:t]` / `[t:]`, for a leaf `y` the chain is spliced (implicit here). -/
def splitChild (t : Nat) (ks : List Int) (cs : List BNode) (i : Nat) :
    List Int × List BNode :=
  match cs.getD i (.leaf []) with
  | .leaf yks =>
      (insAt i (yks.getD (t-1) 0) ks,
       insAt (i+1) (.leaf (yks.drop t)) (cs.set i (.leaf (yks.take t))))
  | .node yks ycs =>
      (insAt i (yks.getD (t-1) 0) ks,
       insAt (i+1) (.node (yks.drop t) (ycs.drop t))
         (cs.set i (.node (yks.take t) (ycs.take t))))

/-- `BPlusTree._insert_non_full`, with fuel (0 fuel: no-op; the wrapper
passes `height + 1`, which suffices).  This is the total model: the child
subscript read by the fullness check is taken with a `getD` default, which
is faithful only while it stays in range.  The crash-aware companion
`insertNonFullM` below models the subscript exactly (Python `IndexError` =
`crash`) and is proved to agree with this one on well-formed trees and
fresh keys. -/
def insertNonFull : Nat → Nat → Int → BNode → BNode
  | 0, _, _, x => x
  | fuel+1, t, k, x =>
    match x with
    | .leaf ks => .leaf (insertKey k ks)
    | .node ks cs =>
      let i := splitPos k ks
      if (keysOf (cs.getD i (.leaf []))).length = 2*t - 1 then
        let p := splitChild t ks cs i
        let i2 := if k > p.1.getD i 0 then i + 1 else i
        .node p.1 (p.2.set i2 (insertNonFull fuel t k (p.2.getD i2 (.leaf []))))
      else
        .node ks (cs.set i (insertNonFull fuel t k (cs.getD i (.leaf []))))

/-- `BPlusTree.insert(k)`: split the root first when it is full. -/
def insert (t : Nat) (k : Int) (x : BNode) : BNode :=
  if (keysOf x).length = 2*t - 1 then
    let p := splitChild t [] [x] 0
    insertNonFull (heightB (.node p.1 p.2) + 1) t k (.node p.1 p.2)
  else insertNonFull (heightB x + 1) t k x

def insertAll (t : Nat) (ks : List Int) (x : BNode) : BNode :=
  ks.foldl (fun acc k => insert t k acc) x


mutual
/-- `BPlusTree.search` / `_search_internal`: descend by `leftScan`, then
scan the leaf for an exact match; returns the leaf's keys and the offset. -/
def search (k : Int) : BNode → Option (List Int × Nat)
  | .leaf ks =>
    let i := leftScan k ks
    if i < ks.length ∧ ks.getD i 0 = k then some (ks, i) else none
  | .node ks cs => searchChild k (leftScan k ks) cs
def searchChild (k : Int) : Nat → List BNode → Option (List Int × Nat)
  | _, [] => none
  | 0, c :: _ => search k c
  | i+1, _ :: cs => searchChild k i cs
end

mutual
/-- Position (in chain order) of the leaf that `_find_leaf(root, k)` reaches. -/
def findLeafPos (k : Int) : BNode → Nat
  | .leaf _ => 0
  | .node ks cs => findLeafPosL k (leftScan k ks) cs
def findLeafPosL (k : Int) : Nat → List BNode → Nat
  | _, [] => 0
  | 0, c :: _ => findLeafPos k c
  | i+1, c :: cs => (leafLists c).length + findLeafPosL k i cs
end

/-- The per-key loop of `range_query`: collect keys in `[lo, hi]`, stop at
the first key `> hi`, skip keys `< lo`. -/
def rangeScan (lo hi : Int) : List Int → List Int
  | [] => []
  | k :: ks =>
    if lo ≤ k ∧ k ≤ hi then k :: rangeScan lo hi ks
    else if k > hi then []
    else rangeScan lo hi ks

/-- `BPlusTree.range_query(start, end)`: find the leaf for `lo`, walk the
chain from there collecting keys in range. -/
def range_query (lo hi : Int) (x : BNode) : List Int :=
  rangeScan lo hi (((leafLists x).drop (findLeafPos lo x)) |>.flatten)

/-- Result of an operation in the crash-aware models (deletion, and
insertion via `insertNonFullM`): `out` = fuel ran out (never happens with
the fuel the wrappers pass on the runs below), `crash` = the Python code
raises `IndexError`, `ok` = normal completion with the resulting tree. -/
inductive DRes where
  | out
  | crash
  | ok (x : BNode)

def DRes.isOk : DRes → Bool
  | .ok _ => true
  | _ => false

def DRes.isCrash : DRes → Bool
  | .crash => true
  | _ => false

/-- `BPlusTree._insert_non_full` again, but with Python's `IndexError`
modelled explicitly (as in the deletion model): the child subscript
`x.children[i]` read by the fullness check — the one insertion subscript
that can go out of range, hit when the key equals the median of a full
internal node being split — yields `crash` when out of range.  On paths
where the access is in range this agrees with `insertNonFull` via
`DRes.ok` (proved below for well-formed trees and fresh keys). -/
def insertNonFullM : Nat → Nat → Int → BNode → DRes
  | 0, _, _, _ => .out
  | fuel+1, t, k, x =>
    match x with
    | .leaf ks => .ok (.leaf (insertKey k ks))
    | .node ks cs =>
      let i := splitPos k ks
      match cs.get? i with
      | none => .crash
      | some ci =>
        if (keysOf ci).length = 2*t - 1 then
          let p := splitChild t ks cs i
          let i2 := if k > p.1.getD i 0 then i + 1 else i
          match p.2.get? i2 with
          | none => .crash
          | some ci2 =>
            match insertNonFullM fuel t k ci2 with
            | .ok c' => .ok (.node p.1 (p.2.set i2 c'))
            | r => r
        else
          match insertNonFullM fuel t k ci with
          | .ok c' => .ok (.node ks (cs.set i c'))
          | r => r

/-- `BPlusTree.insert(k)` in the crash-aware model. -/
def insertM (t : Nat) (k : Int) (x : BNode) : DRes :=
  if (keysOf x).length = 2*t - 1 then
    let p := splitChild t [] [x] 0
    insertNonFullM (heightB (.node p.1 p.2) + 1) t k (.node p.1 p.2)
  else insertNonFullM (heightB x + 1) t k x

/-- Run one crash-aware insert, keeping the tree unchanged on crash/fuel-out
(paired below with `DRes.isOk` facts wherever it is used). -/
def insStep (t : Nat) (k : Int) (x : BNode) : BNode :=
  match insertM t k x with
  | .ok r => r
  | _ => x

mutual
/-- `_get_pred`'s walk: last key of the rightmost leaf under a node
(`none` when an empty keys/children list would make Python crash). -/
def lastLeafKey? : BNode → Option Int
  | .leaf ks => ks.getLast?
  | .node _ cs => lastChildKey? cs
def lastChildKey? : List BNode → Option Int
  | [] => none
  | [c] => lastLeafKey? c
  | _ :: cs => lastChildKey? cs
end

mutual
/-- `_get_succ`'s walk: first key of the leftmost leaf under a node. -/
def firstLeafKey? : BNode → Option Int
  | .leaf ks => ks.head?
  | .node _ cs => firstChildKey? cs
def firstChildKey? : List BNode → Option Int
  | [] => none
  | c :: _ => firstLeafKey? c
end

/-- `BPlusTree._borrow_from_prev(x, i)` on parent keys/children (only ever
called with `i ≥ 1`): the parent separator `keys[i-1]` is pushed onto the
front of `children[i]`'s keys, the left sibling's popped last key becomes
the new separator, and for internal children the sibling's last child moves
over as well.  `none` = Python would raise (empty pop / bad index). -/
def borrowPrev (ks : List Int) (cs : List BNode) (i : Nat) :
    Option (List Int × List BNode) :=
  match cs.get? i, cs.get? (i-1), ks.get? (i-1) with
  | some child, some sib, some sep =>
    match (keysOf sib).getLast? with
    | none => none
    | some sl =>
      let sibKeys := (keysOf sib).dropLast
      let ks' := ks.set (i-1) sl
      match child with
      | .leaf cks =>
        let sib' := match sib with
          | .leaf _ => BNode.leaf sibKeys
          | .node _ scs => BNode.node sibKeys scs
        some (ks', (cs.set i (.leaf (sep :: cks))).set (i-1) sib')
      | .node cks ccs =>
        match (childrenOf sib).getLast? with
        | none => none
        | some sc =>
          let sib' := match sib with
            | .leaf _ => BNode.leaf sibKeys
            | .node _ scs => BNode.node sibKeys scs.dropLast
          some (ks', (cs.set i (.node (sep :: cks) (sc :: ccs))).set (i-1) sib')
  | _, _, _ => none

/-- `BPlusTree._borrow_from_next(x, i)`: the parent separator `keys[i]` is
appended to `children[i]`'s keys, the right sibling's popped first key
becomes the new separator, and for internal children the sibling's first
child moves over. -/
def borrowNext (ks : List Int) (cs : List BNode) (i : Nat) :
    Option (List Int × List BNode) :=
  match cs.get? i, cs.get? (i+1), ks.get? i with
  | some child, some sib, some sep =>
    match (keysOf sib).head? with
    | none => none
    | some sh =>
      let sibKeys := (keysOf sib).tail
      let ks' := ks.set i sh
      match child with
      | .leaf cks =>
        let sib' := match sib with
          | .leaf _ => BNode.leaf sibKeys
          | .node _ scs => BNode.node sibKeys scs
        some (ks', (cs.set i (.leaf (cks ++ [sep]))).set (i+1) sib')
      | .node cks ccs =>
        match (childrenOf sib).head? with
        | none => none
        | some sc =>
          let sib' := match sib with
            | .leaf _ => BNode.leaf sibKeys
            | .node _ scs => BNode.node sibKeys scs.tail
          some (ks', (cs.set i (.node (cks ++ [sep]) (ccs ++ [sc]))).set (i+1) sib')
  | _, _, _ => none

/-- `BPlusTree._merge(x, i)`: `children[i]` absorbs the parent separator
`keys[i]` followed by the right sibling's keys (the separator is appended
unconditionally, for leaf children too), internal children also absorb the
sibling's children; the separator and the sibling are removed from the
parent and the chain is spliced past the sibling (implicit here). -/
def mergeAt (ks : List Int) (cs : List BNode) (i : Nat) :
    Option (List Int × List BNode) :=
  match cs.get? i, cs.get? (i+1), ks.get? i with
  | some child, some sib, some sep =>
    let child' := match child with
      | .leaf cks => BNode.leaf (cks ++ sep :: keysOf sib)
      | .node cks ccs => BNode.node (cks ++ sep :: keysOf sib) (ccs ++ childrenOf sib)
    some (ks.eraseIdx i, (cs.set i child').eraseIdx (i+1))
  | _, _, _ => none

mutual
/-- `BPlusTree._delete_internal` / `_delete_from_internal_node`, with fuel.
The branch structure (including the `i + 2 < len(children)` guard, the
fall-through case where none of the guards fire, and the recursion into
`x.children[i]` after `_merge(x, i-1)` in the last-child branch, which can
step out of range) mirrors the Python line by line. -/
def delInternal : Nat → Nat → BNode → Int → DRes
  | 0, _, _, _ => .out
  | fuel+1, t, x, k =>
    match x with
    | .leaf ks =>
      let i := leftScan k ks
      .ok (.leaf (if i < ks.length ∧ ks.getD i 0 = k then ks.eraseIdx i else ks))
    | .node ks cs =>
      let i := leftScan k ks
      if i < ks.length ∧ ks.getD i 0 = k then
        delFromInternal fuel t (.node ks cs) k i
      else
        match cs.get? i with
        | none => .crash
        | some ci =>
          if t ≤ (keysOf ci).length then
            match delInternal fuel t ci k with
            | .ok ci' => .ok (.node ks (cs.set i ci'))
            | r => r
          else
            let fixed : Option (List Int × List BNode) :=
              if i ≠ 0 ∧ i + 2 < cs.length then
                match cs.get? (i-1), cs.get? (i+1) with
                | some p, some n =>
                  if t ≤ (keysOf p).length then borrowPrev ks cs i
                  else if t ≤ (keysOf n).length then borrowNext ks cs i
                  else mergeAt ks cs i
                | _, _ => none
              else if i = 0 then
                match cs.get? (i+1) with
                | some n =>
                  if t ≤ (keysOf n).length then borrowNext ks cs i
                  else mergeAt ks cs i
                | none => none
              else if i + 1 = cs.length then
                match cs.get? (i-1) with
                | some p =>
                  if t ≤ (keysOf p).length then borrowPrev ks cs i
                  else mergeAt ks cs (i-1)
                | none => none
              else some (ks, cs)
            match fixed with
            | none => .crash
            | some (ks', cs') =>
              match cs'.get? i with
              | none => .crash
              | some ci' =>
                match delInternal fuel t ci' k with
                | .ok ci'' => .ok (.node ks' (cs'.set i ci''))
                | r => r
def delFromInternal : Nat → Nat → BNode → Int → Nat → DRes
  | 0, _, _, _, _ => .out
  | fuel+1, t, x, k, i =>
    match x with
    | .leaf ks =>
      .ok (.leaf (if i < ks.length ∧ ks.getD i 0 = k then ks.eraseIdx i else ks))
    | .node ks cs =>
      match cs.get? i with
      | none => .crash
      | some ci =>
        if t ≤ (keysOf ci).length then
          match lastLeafKey? ci with
          | none => .crash
          | some pred =>
            match delInternal fuel t ci pred with
            | .ok ci' => .ok (.node (ks.set i pred) (cs.set i ci'))
            | r => r
        else
          match cs.get? (i+1) with
          | none => .crash
          | some ci1 =>
            if t ≤ (keysOf ci1).length then
              match firstLeafKey? ci1 with
              | none => .crash
              | some succ =>
                match delInternal fuel t ci1 succ with
                | .ok ci1' => .ok (.node (ks.set i succ) (cs.set (i+1) ci1'))
                | r => r
            else
              match mergeAt ks cs i with
              | none => .crash
              | some (ks', cs') =>
                match cs'.get? i with
                | none => .crash
                | some ci' =>
                  match delInternal fuel t ci' k with
                  | .ok ci'' => .ok (.node ks' (cs'.set i ci''))
                  | r => r
end

/-- `BPlusTree.delete(k)`: run `_delete_internal` at the root, then collapse
an internal root left with no keys onto its single child. -/
def delete (t : Nat) (x : BNode) (k : Int) : DRes :=
  match delInternal (2 * heightB x + 4) t x k with
  | .ok r =>
    if (keysOf r).length = 0 ∧ isLeaf r = false then
      match (childrenOf r).get? 0 with
      | none => .crash
      | some c => .ok c
    else .ok r
  | r => r

/-- Run one delete, keeping the tree unchanged on crash/fuel-out (the
concrete runs below pair every use with a `DRes.isOk` fact). -/
def delStep (t : Nat) (x : BNode) (k : Int) : BNode :=
  match delete t x k with
  | .ok r => r
  | _ => x

/-- Modelled from the spec: one operation of a sequence of insert and delete
operations, the vocabulary in which the claims about "currently-present
keys" (inserted and not subsequently deleted) are stated. -/
inductive Op where
  | ins (k : Int)
  | del (k : Int)

/-- Modelled from the spec: the keys currently present after a sequence of
operations — each inserted key, removed again when a later delete names it. -/
def presentKeys (ops : List Op) : List Int :=
  ops.foldl
    (fun acc op =>
      match op with
      | .ins k => acc ++ [k]
      | .del k => acc.filter (fun a => !(a == k)))
    []

/-- Apply one operation to the tree (crash-aware models, unchanged tree on a
crash — paired with `runOk` facts wherever it is used). -/
def runOp (t : Nat) (x : BNode) : Op → BNode
  | .ins k => insStep t k x
  | .del k => delStep t x k

def runOps (t : Nat) (ops : List Op) (x : BNode) : BNode :=
  ops.foldl (runOp t) x

def opOk (t : Nat) (x : BNode) : Op → Bool
  | .ins k => (insertM t k x).isOk
  | .del k => (delete t x k).isOk

/-- Every operation of the sequence completes normally (no `IndexError`,
enough fuel) when run in order. -/
def runOk (t : Nat) : List Op → BNode → Bool
  | [], _ => true
  | op :: ops, x => opOk t x op && runOk t ops (runOp t x op)

/-- The index object (`BPlusTree.__init__`): a root node and the minimum
degree `t`. -/
structure BPlusTree where
  root : BNode
  t : Nat

/-- `BPlusTree(t)`: Python's constructor stores `t` unvalidated and makes
the root an empty leaf. -/
def new (t : Nat) : BPlusTree := ⟨.leaf [], t⟩

/-- Modelled from the spec: `new(t)` "constructs an empty index with minimum
degree `t` (`t ≥ 2`); fails (configuration error) if `t < 2`" — the
validating constructor the spec describes, for comparison with `new`. -/
def newSpec (t : Nat) : Option BPlusTree :=
  if t < 2 then none else some ⟨.leaf [], t⟩

/-! ### Structural invariants

`wf t x lo hi` is the invariant the insertion algorithm actually maintains
on the subtree `x` over the half-open-from-below interval `(lo, hi]`
(`none` = unbounded).  A child list either has one more entry than the key
list (`keys[j]` separates `children[j]` from `children[j+1]`, and the keys
of `children[j]`'s subtree lie in `(keys[j-1], keys[j]]`), or — after this
code's `_split_child` has split an internal node, which keeps the promoted
median — exactly as many entries as the key list, in which case the last
key equals the upper bound `hi`.  Every separator key is a copy of a key
stored in the leaves of the child directly to its left. -/

def optLT : Option Int → Int → Bool
  | none, _ => true
  | some a, k => a < k

def optLEr : Int → Option Int → Bool
  | _, none => true
  | k, some b => k ≤ b

def optLE2 : Option Int → Option Int → Bool
  | none, _ => true
  | some _, none => true
  | some a, some b => a ≤ b

def sortedLt : List Int → Bool
  | [] => true
  | [_] => true
  | a :: b :: l => a < b && sortedLt (b :: l)

def boundsOk (lo hi : Option Int) (ks : List Int) : Bool :=
  ks.all fun k => optLT lo k && optLEr k hi

mutual
def wf (t : Nat) : BNode → Option Int → Option Int → Bool
  | .leaf ks, lo, hi =>
    sortedLt ks && boundsOk lo hi ks && decide (ks.length ≤ 2*t - 1)
  | .node ks cs, lo, hi =>
    !ks.isEmpty && decide (ks.length ≤ 2*t - 1) && wfSeq t cs ks lo hi
def wfSeq (t : Nat) : List BNode → List Int → Option Int → Option Int → Bool
  | [], [], lo, hi => hi == lo
  | [c], [], lo, hi => wf t c lo hi && optLE2 lo hi
  | c :: cs, k :: ks, lo, hi =>
    wf t c lo (some k) && decide (k ∈ chainKeys c) && optLT lo k &&
      wfSeq t cs ks (some k) hi
  | _, _, _, _ => false
end

mutual
/-- Does every internal node of the tree have exactly `keys + 1` children?
(Spec invariant 2.) -/
def nodesOk : BNode → Bool
  | .leaf _ => true
  | .node ks cs => decide (cs.length = ks.length + 1) && nodesOkL cs
def nodesOkL : List BNode → Bool
  | [] => true
  | c :: cs => nodesOk c && nodesOkL cs
end

mutual
/-- Does every non-root node have at least `t-1` keys? (Spec invariant 1,
lower half; the root is exempt.) -/
def minFillSub (t : Nat) : BNode → Bool
  | .leaf ks => decide (t-1 ≤ ks.length)
  | .node ks cs => decide (t-1 ≤ ks.length) && minFillL t cs
def minFillL (t : Nat) : List BNode → Bool
  | [] => true
  | c :: cs => minFillSub t c && minFillL t cs
end

def minFillRoot (t : Nat) : BNode → Bool
  | .leaf _ => true
  | .node _ cs => minFillL t cs

mutual
/-- Depths (from this node) of all leaves, left to right. -/
def leafDepths : BNode → List Nat
  | .leaf _ => [0]
  | .node _ cs => (leafDepthsL cs).map (· + 1)
def leafDepthsL : List BNode → List Nat
  | [] => []
  | c :: cs => leafDepths c ++ leafDepthsL cs
end

/-- All leaves at equal depth (spec invariant 3). -/
def depthsOk (x : BNode) : Bool :=
  (leafDepths x).all fun d => d = (leafDepths x).getD 0 0

/-! ### List-level lemmas -/

theorem insAt_eq_take_drop (n : Nat) (a : α) (l : List α) :
    insAt n a l = l.take n ++ a :: l.drop n := by
  induction l generalizing n with
  | nil => cases n <;> simp [insAt]
  | cons x xs ih => cases n <;> simp [insAt, ih]

theorem length_insAt (n : Nat) (a : α) (l : List α) :
    (insAt n a l).length = l.length + 1 := by
  induction l generalizing n with
  | nil => cases n <;> simp [insAt]
  | cons x xs ih => cases n <;> simp [insAt, ih]

theorem insAt_perm (n : Nat) (a : α) (l : List α) :
    (insAt n a l).Perm (a :: l) := by
  rw [insAt_eq_take_drop]
  refine List.perm_middle.trans ?_
  rw [List.take_append_drop]

theorem mem_insAt {b a : α} {n : Nat} {l : List α} :
    b ∈ insAt n a l ↔ b = a ∨ b ∈ l := by
  constructor
  · intro h; have := (insAt_perm n a l).mem_iff.mp h; simpa using this
  · intro h; exact (insAt_perm n a l).mem_iff.mpr (by simpa using h)

theorem getD_mem {l : List α} {n : Nat} (d : α) (h : n < l.length) :
    l.getD n d ∈ l := by
  induction l generalizing n with
  | nil => simp at h
  | cons x xs ih =>
    cases n with
    | zero => simp [List.getD]
    | succ n => exact List.mem_cons_of_mem _ (ih (by simpa using h))

theorem getD_insAt_lt {n j : Nat} (a : α) (l : List α) (d : α) (h : j < n)
    (hn : n ≤ l.length) : (insAt n a l).getD j d = l.getD j d := by
  induction l generalizing n j with
  | nil => simp at hn; omega
  | cons x xs ih =>
    cases n with
    | zero => omega
    | succ n =>
      cases j with
      | zero => simp [insAt]
      | succ j => simpa [insAt] using ih (by omega) (by simpa using hn)

theorem getD_insAt_self {n : Nat} (a : α) (l : List α) (d : α) (h : n ≤ l.length) :
    (insAt n a l).getD n d = a := by
  induction l generalizing n with
  | nil =>
    have : n = 0 := by simpa using h
    subst this; simp [insAt]
  | cons x xs ih =>
    cases n with
    | zero => simp [insAt]
    | succ n => simpa [insAt] using ih (by simpa using h)

theorem getD_insAt_gt {n j : Nat} (a : α) (l : List α) (d : α) (h : n < j)
    (hn : n ≤ l.length) : (insAt n a l).getD j d = l.getD (j-1) d := by
  induction l generalizing n j with
  | nil =>
    have : n = 0 := by simpa using hn
    subst this
    cases j with
    | zero => omega
    | succ j => cases j <;> simp [insAt, List.getD]
  | cons x xs ih =>
    cases n with
    | zero =>
      cases j with
      | zero => omega
      | succ j => simp [insAt]
    | succ n =>
      cases j with
      | zero => omega
      | succ j =>
        have hj : n < j := by omega
        have := ih (j := j) hj (by simpa using hn)
        cases j with
        | zero => omega
        | succ j => simpa [insAt] using this

theorem getD_set_self {n : Nat} (a : α) (l : List α) (d : α) (h : n < l.length) :
    (l.set n a).getD n d = a := by
  induction l generalizing n with
  | nil => simp at h
  | cons x xs ih =>
    cases n with
    | zero => simp
    | succ n => simpa using ih (by simpa using h)

theorem getD_set_ne {n j : Nat} (a : α) (l : List α) (d : α) (h : n ≠ j) :
    (l.set n a).getD j d = l.getD j d := by
  induction l generalizing n j with
  | nil => simp
  | cons x xs ih =>
    cases n with
    | zero => cases j with
      | zero => omega
      | succ j => simp
    | succ n =>
      cases j with
      | zero => simp
      | succ j => simpa using ih (by omega)

theorem set_eq_take_drop {n : Nat} (a : α) (l : List α) (h : n < l.length) :
    l.set n a = l.take n ++ a :: l.drop (n+1) := by
  induction l generalizing n with
  | nil => simp at h
  | cons x xs ih =>
    cases n with
    | zero => simp
    | succ n => simpa using ih (by simpa using h)

/-! ### splitPos / leftScan / insertKey lemmas -/

theorem splitPos_le_length (k : Int) (ks : List Int) : splitPos k ks ≤ ks.length := by
  induction ks with
  | nil => simp [splitPos]
  | cons x xs ih =>
    simp only [splitPos]
    split
    · split <;> simp [List.length_cons] <;> omega
    · simpa using ih

theorem splitPos_eq_zero_iff (k : Int) (ks : List Int) :
    splitPos k ks = 0 ↔ ∀ a ∈ ks, k < a := by
  induction ks with
  | nil => simp [splitPos]
  | cons x xs ih =>
    simp only [splitPos]
    constructor
    · intro h
      split at h
      · next hp =>
        split at h
        · next hkx =>
          intro a ha
          rcases List.mem_cons.mp ha with rfl | ha'
          · exact hkx
          · exact ih.mp hp a ha'
        · exact absurd h (by omega)
      · exact absurd h (by omega)
    · intro h
      have hp : splitPos k xs = 0 := ih.mpr fun a ha => h a (List.mem_cons_of_mem _ ha)
      have hkx : k < x := h x (List.mem_cons_self _ _)
      simp [hp, hkx]

theorem splitPos_get_le (k : Int) (ks : List Int) {i : Nat}
    (h : splitPos k ks = i + 1) : ks.getD i 0 ≤ k ∧ i < ks.length := by
  induction ks generalizing i with
  | nil => simp [splitPos] at h
  | cons x xs ih =>
    simp only [splitPos] at h
    split at h
    · next hp =>
      split at h
      · simp at h
      · next hkx =>
        have : i = 0 := by omega
        subst this
        exact ⟨le_of_not_lt hkx, by simp⟩
    · next hp =>
      cases i with
      | zero =>
        have : splitPos k xs = 0 := by omega
        exact absurd this hp
      | succ i =>
        have hx : splitPos k xs = i + 1 := by omega
        have := ih hx
        exact ⟨by simpa using this.1, by simpa using Nat.succ_lt_succ this.2⟩

theorem splitPos_after (k : Int) (ks : List Int) {j : Nat}
    (h1 : splitPos k ks ≤ j) (h2 : j < ks.length) : k < ks.getD j 0 := by
  induction ks generalizing j with
  | nil => simp at h2
  | cons x xs ih =>
    simp only [splitPos] at h1
    split at h1
    · next hp =>
      cases j with
      | zero =>
        split at h1
        · next hkx => simpa using hkx
        · omega
      | succ j =>
        have := (splitPos_eq_zero_iff k xs).mp hp
        have hmem : xs.getD j 0 ∈ xs :=
          getD_mem _ (by simpa using h2)
        simpa using this _ hmem
    · next hp =>
      cases j with
      | zero => omega
      | succ j => simpa using ih (by omega) (by simpa using h2)

theorem leftScan_eq_zero {k : Int} {ks : List Int} (h : ∀ a ∈ ks, k ≤ a) :
    leftScan k ks = 0 := by
  cases ks with
  | nil => rfl
  | cons x xs =>
    have : ¬ k > x := not_lt.mpr (h x (List.mem_cons_self _ _))
    simp [leftScan, this]

theorem insertKey_perm (k : Int) (ks : List Int) :
    (insertKey k ks).Perm (k :: ks) := by
  unfold insertKey
  refine List.perm_middle.trans ?_
  rw [List.take_append_drop]

/-- The recursive unfolding of `insertKey` on a cons cell. -/
theorem insertKey_cons (k x : Int) (xs : List Int) :
    insertKey k (x :: xs) =
      if splitPos k (x :: xs) = 0 then k :: x :: xs else x :: insertKey k xs := by
  by_cases hp : splitPos k xs = 0
  · by_cases hkx : k < x
    · have hP : splitPos k (x :: xs) = 0 := by simp [splitPos, hp, hkx]
      simp [insertKey, hP]
    · have hP : splitPos k (x :: xs) = 1 := by simp [splitPos, hp, hkx]
      simp [insertKey, hP, hp]
  · rcases Nat.exists_eq_succ_of_ne_zero hp with ⟨q, hq⟩
    have hP : splitPos k (x :: xs) = q + 2 := by simp [splitPos, hq]
    simp [insertKey, hP, hq]

theorem sortedLt_cons {x : Int} {xs : List Int} :
    sortedLt (x :: xs) = true ↔
      (∀ a ∈ xs.head?, x < a) ∧ sortedLt xs = true := by
  cases xs with
  | nil => simp [sortedLt]
  | cons y ys => simp [sortedLt, Bool.and_eq_true]

theorem sortedLt_iff_chain (l : List Int) :
    sortedLt l = true ↔ l.Chain' (· < ·) := by
  induction l with
  | nil => simp [sortedLt]
  | cons x xs ih =>
    rw [sortedLt_cons, List.chain'_cons', ih]

theorem sortedLt_pairwise {l : List Int} (h : sortedLt l = true) :
    l.Pairwise (· < ·) :=
  List.chain'_iff_pairwise.mp ((sortedLt_iff_chain l).mp h)

theorem pairwise_sortedLt {l : List Int} (h : l.Pairwise (· < ·)) :
    sortedLt l = true :=
  (sortedLt_iff_chain l).mpr (List.chain'_iff_pairwise.mpr h)

theorem insertKey_sorted {k : Int} {ks : List Int}
    (hs : sortedLt ks = true) (hk : k ∉ ks) :
    sortedLt (insertKey k ks) = true := by
  induction ks with
  | nil => simp [insertKey, splitPos, sortedLt]
  | cons x xs ih =>
    have hs' : sortedLt xs = true := (sortedLt_cons.mp hs).2
    have hk' : k ∉ xs := fun h => hk (List.mem_cons_of_mem _ h)
    rw [insertKey_cons]
    split
    · next h0 =>
      have hx := (splitPos_eq_zero_iff k _).mp h0 x (List.mem_cons_self _ _)
      rw [sortedLt_cons]
      exact ⟨by simpa using hx, hs⟩
    · next h0 =>
      have hxk : x < k := by
        by_cases hp : splitPos k xs = 0
        · have hnlt : ¬ k < x := by
            intro hkx
            exact h0 (by simp [splitPos, hp, hkx])
          have hne : x ≠ k := fun he => hk (by simp [he])
          omega
        · rcases Nat.exists_eq_succ_of_ne_zero hp with ⟨q, hq⟩
          have h1 := splitPos_get_le k xs hq
          have hmem : xs.getD q 0 ∈ xs := getD_mem _ h1.2
          have hxlt : x < xs.getD q 0 :=
            (List.pairwise_cons.mp (sortedLt_pairwise hs)).1 _ hmem
          omega
      rw [sortedLt_cons]
      refine ⟨?_, ih hs' hk'⟩
      intro a ha
      cases xs with
      | nil =>
        simp [insertKey, splitPos] at ha
        omega
      | cons y ys =>
        rw [insertKey_cons] at ha
        split at ha
        · simp at ha; omega
        · simp at ha
          have hxy : x < y := by
            have := (List.pairwise_cons.mp (sortedLt_pairwise hs)).1 y (by simp)
            exact this
          omega



/-! ### Chain and height lemmas -/

/-- Keys stored in the leaves of a child list, in chain order. -/
def chainSeq (cs : List BNode) : List Int := (leafListsL cs).flatten

@[simp] theorem chainKeys_leaf (ks : List Int) : chainKeys (.leaf ks) = ks := by
  simp [chainKeys, leafLists]

@[simp] theorem chainKeys_node (ks : List Int) (cs : List BNode) :
    chainKeys (.node ks cs) = chainSeq cs := by
  simp [chainKeys, chainSeq, leafLists]

@[simp] theorem chainSeq_nil : chainSeq [] = [] := by
  simp [chainSeq, leafListsL]

@[simp] theorem chainSeq_cons (c : BNode) (cs : List BNode) :
    chainSeq (c :: cs) = chainKeys c ++ chainSeq cs := by
  simp [chainSeq, chainKeys, leafListsL]

theorem leafListsL_append (a b : List BNode) :
    leafListsL (a ++ b) = leafListsL a ++ leafListsL b := by
  induction a with
  | nil => simp [leafListsL]
  | cons c cs ih => simp [leafListsL, ih]

theorem chainSeq_append (a b : List BNode) :
    chainSeq (a ++ b) = chainSeq a ++ chainSeq b := by
  simp [chainSeq, leafListsL_append]

theorem drop_eq_getD_cons {l : List α} {j : Nat} (d : α) (h : j < l.length) :
    l.drop j = l.getD j d :: l.drop (j+1) := by
  induction l generalizing j with
  | nil => simp at h
  | cons x xs ih =>
    cases j with
    | zero => simp [List.getD]
    | succ j => simpa using ih (by simpa using h)

theorem chainSeq_decomp (cs : List BNode) {j : Nat} (h : j < cs.length) :
    chainSeq cs =
      chainSeq (cs.take j) ++ chainKeys (cs.getD j (.leaf [])) ++ chainSeq (cs.drop (j+1)) := by
  conv_lhs => rw [← List.take_append_drop j cs]
  rw [chainSeq_append, drop_eq_getD_cons (BNode.leaf []) h, chainSeq_cons]
  simp [List.append_assoc]

theorem chainSeq_set (cs : List BNode) (c' : BNode) {j : Nat} (h : j < cs.length) :
    chainSeq (cs.set j c') =
      chainSeq (cs.take j) ++ chainKeys c' ++ chainSeq (cs.drop (j+1)) := by
  rw [set_eq_take_drop _ _ h, chainSeq_append, chainSeq_cons]
  simp [List.append_assoc]

theorem chainKeys_getD_sublist (cs : List BNode) {j : Nat} (h : j < cs.length)
    {a : Int} (ha : a ∈ chainKeys (cs.getD j (.leaf []))) : a ∈ chainSeq cs := by
  rw [chainSeq_decomp cs h]
  exact List.mem_append.mpr (Or.inl (List.mem_append.mpr (Or.inr ha)))

theorem heightB_mem_le {c : BNode} {cs : List BNode} (h : c ∈ cs) :
    heightB c ≤ heightL cs := by
  induction cs with
  | nil => simp at h
  | cons d ds ih =>
    rcases List.mem_cons.mp h with rfl | h'
    · simp [heightL, Nat.le_max_left]
    · exact le_trans (ih h') (by simp [heightL, Nat.le_max_right])

theorem heightB_getD_lt (ks : List Int) (cs : List BNode) {j : Nat}
    (h : j < cs.length) :
    heightB (cs.getD j (.leaf [])) < heightB (.node ks cs) := by
  have hm : cs.getD j (.leaf []) ∈ cs := getD_mem _ h
  have := heightB_mem_le hm
  simp only [heightB]
  omega

/-- Member-wise induction over `BNode`. -/
theorem BNode.ind (P : BNode → Prop) (hleaf : ∀ ks, P (BNode.leaf ks))
    (hnode : ∀ ks cs, (∀ c ∈ cs, P c) → P (BNode.node ks cs)) : ∀ x, P x := by
  have key : ∀ n x, sizeOf x ≤ n → P x := by
    intro n
    induction n with
    | zero =>
      intro x hx
      cases x <;> simp_arith at hx
    | succ n ih =>
      intro x hx
      cases x with
      | leaf ks => exact hleaf ks
      | node ks cs =>
        refine hnode ks cs fun c hc => ih c ?_
        have h1 := List.sizeOf_lt_of_mem hc
        have h2 : sizeOf (BNode.node ks cs) = 1 + sizeOf ks + sizeOf cs := by
          simp
        omega
  exact fun x => key (sizeOf x) x le_rfl

/-! ### wf unfolding and derived facts -/

theorem optLE2_some (a : Int) (b : Option Int) : optLE2 (some a) b = optLEr a b := by
  cases b <;> rfl

theorem optLT_of_le {lo : Option Int} {a b : Int} (h : optLT lo a = true)
    (hab : a ≤ b) : optLT lo b = true := by
  cases lo with
  | none => rfl
  | some v => simp [optLT] at h ⊢; omega

theorem optLEr_of_le {hi : Option Int} {a b : Int}
    (hb : optLEr b hi = true) (hab : a ≤ b) : optLEr a hi = true := by
  cases hi with
  | none => rfl
  | some v => simp [optLEr] at hb ⊢; omega

theorem wf_leaf_iff {t : Nat} {ks : List Int} {lo hi : Option Int} :
    wf t (.leaf ks) lo hi = true ↔
      sortedLt ks = true ∧ boundsOk lo hi ks = true ∧ ks.length ≤ 2*t - 1 := by
  simp [wf, Bool.and_eq_true, and_assoc]

theorem wf_node_iff {t : Nat} {ks : List Int} {cs : List BNode} {lo hi : Option Int} :
    wf t (.node ks cs) lo hi = true ↔
      ks ≠ [] ∧ ks.length ≤ 2*t - 1 ∧ wfSeq t cs ks lo hi = true := by
  simp [wf, Bool.and_eq_true, and_assoc, List.isEmpty_iff]

theorem wfSeq_pair {t : Nat} {c : BNode} {cs : List BNode} {k : Int}
    {ks : List Int} {lo hi : Option Int} :
    wfSeq t (c :: cs) (k :: ks) lo hi = true ↔
      wf t c lo (some k) = true ∧ k ∈ chainKeys c ∧ optLT lo k = true ∧
        wfSeq t cs ks (some k) hi = true := by
  simp [wfSeq, Bool.and_eq_true, and_assoc]

theorem wfSeq_single {t : Nat} {c : BNode} {lo hi : Option Int} :
    wfSeq t [c] [] lo hi = true ↔ wf t c lo hi = true ∧ optLE2 lo hi = true := by
  simp [wfSeq, Bool.and_eq_true]

theorem wfSeq_nil_nil {t : Nat} {lo hi : Option Int} :
    wfSeq t [] [] lo hi = true ↔ hi = lo := by
  simp [wfSeq]

theorem wfSeq_nil_cons {t : Nat} {k : Int} {ks : List Int} {lo hi : Option Int} :
    wfSeq t [] (k :: ks) lo hi = false := rfl

theorem wfSeq_two_nil {t : Nat} {c1 c2 : BNode} {cs : List BNode} {lo hi : Option Int} :
    wfSeq t (c1 :: c2 :: cs) [] lo hi = false := rfl


theorem boundsOk_iff {lo hi : Option Int} {ks : List Int} :
    boundsOk lo hi ks = true ↔
      ∀ k ∈ ks, optLT lo k = true ∧ optLEr k hi = true := by
  simp [boundsOk, List.all_eq_true, Bool.and_eq_true]

theorem wfSeq_lo_le_hi {t : Nat} :
    ∀ {cs : List BNode} {ks : List Int} {a : Int} {hi : Option Int},
      wfSeq t cs ks (some a) hi = true → optLEr a hi = true := by
  intro cs
  induction cs with
  | nil =>
    intro ks a hi h
    cases ks with
    | nil =>
      rw [wfSeq_nil_nil] at h
      simp [h, optLEr]
    | cons k ks => rw [wfSeq_nil_cons] at h; exact absurd h (by simp)
  | cons c cs ih =>
    intro ks a hi h
    cases ks with
    | nil =>
      cases cs with
      | nil =>
        rw [wfSeq_single] at h
        rw [← optLE2_some]
        exact h.2
      | cons c2 cs2 => rw [wfSeq_two_nil] at h; exact absurd h (by simp)
    | cons k ks =>
      rw [wfSeq_pair] at h
      obtain ⟨_, _, hlt, htail⟩ := h
      have hk := ih htail
      have hak : a < k := by simpa [optLT] using hlt
      exact optLEr_of_le hk (le_of_lt hak)

theorem wfSeq_keys_facts {t : Nat} :
    ∀ {cs : List BNode} {ks : List Int} {lo hi : Option Int},
      wfSeq t cs ks lo hi = true →
      ∀ key ∈ ks, key ∈ chainSeq cs ∧ optLT lo key = true ∧ optLEr key hi = true := by
  intro cs
  induction cs with
  | nil =>
    intro ks lo hi h key hkey
    cases ks with
    | nil => simp at hkey
    | cons k ks => rw [wfSeq_nil_cons] at h; exact absurd h (by simp)
  | cons c cs ih =>
    intro ks lo hi h key hkey
    cases ks with
    | nil => simp at hkey
    | cons k ks =>
      rw [wfSeq_pair] at h
      obtain ⟨hwc, hmem, hlt, htail⟩ := h
      rcases List.mem_cons.mp hkey with rfl | hkey'
      · refine ⟨by simp [hmem], hlt, wfSeq_lo_le_hi htail⟩
      · obtain ⟨h1, h2, h3⟩ := ih htail key hkey'
        have hk2 : k < key := by simpa [optLT] using h2
        refine ⟨by simp [h1], optLT_of_le hlt (le_of_lt hk2), h3⟩

theorem wfSeq_sorted {t : Nat} :
    ∀ {cs : List BNode} {ks : List Int} {lo hi : Option Int},
      wfSeq t cs ks lo hi = true → sortedLt ks = true := by
  intro cs
  induction cs with
  | nil =>
    intro ks lo hi h
    cases ks with
    | nil => rfl
    | cons k ks => rw [wfSeq_nil_cons] at h; exact absurd h (by simp)
  | cons c cs ih =>
    intro ks lo hi h
    cases ks with
    | nil => rfl
    | cons k ks =>
      rw [wfSeq_pair] at h
      obtain ⟨_, _, _, htail⟩ := h
      refine pairwise_sortedLt (List.pairwise_cons.mpr ⟨?_, sortedLt_pairwise (ih htail)⟩)
      intro key hkey
      have := (wfSeq_keys_facts htail key hkey).2.1
      simpa [optLT] using this

theorem wfSeq_len {t : Nat} :
    ∀ {cs : List BNode} {ks : List Int} {lo hi : Option Int},
      wfSeq t cs ks lo hi = true →
      cs.length = ks.length + 1 ∨ cs.length = ks.length := by
  intro cs
  induction cs with
  | nil =>
    intro ks lo hi h
    cases ks with
    | nil => right; rfl
    | cons k ks => rw [wfSeq_nil_cons] at h; exact absurd h (by simp)
  | cons c cs ih =>
    intro ks lo hi h
    cases ks with
    | nil =>
      cases cs with
      | nil => left; rfl
      | cons c2 cs2 => rw [wfSeq_two_nil] at h; exact absurd h (by simp)
    | cons k ks =>
      rw [wfSeq_pair] at h
      rcases ih h.2.2.2 with h1 | h1
      · left; simpa using h1
      · right; simpa using h1

theorem wfSeq_broken_hi {t : Nat} :
    ∀ {cs : List BNode} {ks : List Int} {lo hi : Option Int},
      wfSeq t cs ks lo hi = true → cs.length = ks.length → ks ≠ [] →
      hi = some (ks.getD (ks.length - 1) 0) := by
  intro cs
  induction cs with
  | nil =>
    intro ks lo hi h hlen hne
    cases ks with
    | nil => exact absurd rfl hne
    | cons k ks => simp at hlen
  | cons c cs ih =>
    intro ks lo hi h hlen hne
    cases ks with
    | nil => simp at hlen
    | cons k ks =>
      rw [wfSeq_pair] at h
      obtain ⟨_, _, _, htail⟩ := h
      cases ks with
      | nil =>
        have hcs : cs = [] := List.length_eq_zero.mp (by simpa using hlen)
        subst hcs
        rw [wfSeq_nil_nil] at htail
        simpa using htail
      | cons k2 ks2 =>
        have := ih htail (by simpa using hlen) (by simp)
        simpa using this

theorem wf_chain {t : Nat} (x : BNode) :
    ∀ lo hi, wf t x lo hi = true →
      (chainKeys x).Pairwise (· < ·) ∧
      ∀ a ∈ chainKeys x, optLT lo a = true ∧ optLEr a hi = true := by
  induction x using BNode.ind with
  | hleaf ks =>
    intro lo hi h
    rw [wf_leaf_iff] at h
    refine ⟨by simpa using sortedLt_pairwise h.1, ?_⟩
    intro a ha
    exact boundsOk_iff.mp h.2.1 a (by simpa using ha)
  | hnode ks cs ihm =>
    intro lo hi h
    rw [wf_node_iff] at h
    rw [chainKeys_node]
    suffices hS : ∀ (cs2 : List BNode), (∀ c ∈ cs2, ∀ lo2 hi2, wf t c lo2 hi2 = true →
        (chainKeys c).Pairwise (· < ·) ∧
        ∀ a ∈ chainKeys c, optLT lo2 a = true ∧ optLEr a hi2 = true) →
        ∀ (ks2 : List Int) (lo2 hi2 : Option Int), wfSeq t cs2 ks2 lo2 hi2 = true →
        (chainSeq cs2).Pairwise (· < ·) ∧
        ∀ a ∈ chainSeq cs2, optLT lo2 a = true ∧ optLEr a hi2 = true by
      exact hS cs ihm ks lo hi h.2.2
    intro cs2
    induction cs2 with
    | nil =>
      intro hIH ks2 lo2 hi2 hw
      simp
    | cons c cs' ihc =>
      intro hIH ks2 lo2 hi2 hw
      cases ks2 with
      | nil =>
        cases cs' with
        | nil =>
          rw [wfSeq_single] at hw
          have hc := hIH c (by simp) lo2 hi2 hw.1
          refine ⟨by simpa using hc.1, ?_⟩
          intro a ha
          exact hc.2 a (by simpa using ha)
        | cons c2 cs2' => rw [wfSeq_two_nil] at hw; exact absurd hw (by simp)
      | cons k ks' =>
        rw [wfSeq_pair] at hw
        obtain ⟨hwc, hmem, hlt, htail⟩ := hw
        have hc := hIH c (by simp) lo2 (some k) hwc
        have ht := ihc (fun c' hc' => hIH c' (by simp [hc'])) ks' (some k) hi2 htail
        have hkhi : optLEr k hi2 = true := wfSeq_lo_le_hi htail
        rw [chainSeq_cons]
        constructor
        · rw [List.pairwise_append]
          refine ⟨hc.1, ht.1, ?_⟩
          intro a ha b hb
          have ha' : a ≤ k := by simpa [optLEr] using (hc.2 a ha).2
          have hb' : k < b := by simpa [optLT] using (ht.2 b hb).1
          omega
        · intro a ha
          rcases List.mem_append.mp ha with ha' | ha'
          · have h1 := hc.2 a ha'
            exact ⟨h1.1, optLEr_of_le hkhi (by simpa [optLEr] using h1.2)⟩
          · have h1 := ht.2 a ha'
            have hk2 : k < a := by simpa [optLT] using h1.1
            exact ⟨optLT_of_le hlt (le_of_lt hk2), h1.2⟩


/-! ### Index access helpers on sorted lists and wfSeq -/

theorem sorted_getD_lt {l : List Int} (h : sortedLt l = true) {i j : Nat}
    (hij : i < j) (hj : j < l.length) : l.getD i 0 < l.getD j 0 := by
  induction l generalizing i j with
  | nil => simp at hj
  | cons x xs ih =>
    cases i with
    | zero =>
      cases j with
      | zero => omega
      | succ j =>
        have hp := (List.pairwise_cons.mp (sortedLt_pairwise h)).1
        have hmem : xs.getD j 0 ∈ xs := getD_mem _ (by simpa using hj)
        simpa using hp _ hmem
    | succ i =>
      cases j with
      | zero => omega
      | succ j =>
        have hs' : sortedLt xs = true := (sortedLt_cons.mp h).2
        simpa using ih hs' (by omega) (by simpa using hj)

theorem getD_take {l : List α} {n i : Nat} (d : α) (h : i < n) :
    (l.take n).getD i d = l.getD i d := by
  induction l generalizing n i with
  | nil => simp
  | cons x xs ih =>
    cases n with
    | zero => omega
    | succ n =>
      cases i with
      | zero => simp
      | succ i => simpa using ih (by omega)

theorem getD_drop {l : List α} (n i : Nat) (d : α) :
    (l.drop n).getD i d = l.getD (n+i) d := by
  induction l generalizing n with
  | nil => simp
  | cons x xs ih =>
    cases n with
    | zero => simp
    | succ n => simpa [Nat.succ_add] using ih n

theorem mem_take_getD {l : List α} {n : Nat} {x : α} (d : α) (h : x ∈ l.take n) :
    ∃ i, i < n ∧ i < l.length ∧ l.getD i d = x := by
  induction l generalizing n with
  | nil => simp at h
  | cons a as ih =>
    cases n with
    | zero => simp at h
    | succ n =>
      rcases List.mem_cons.mp (by simpa using h) with rfl | h'
      · exact ⟨0, by omega, by simp, rfl⟩
      · obtain ⟨i, h1, h2, h3⟩ := ih h'
        exact ⟨i+1, by omega, by simpa using h2, by simpa using h3⟩

theorem mem_drop_getD {l : List α} {n : Nat} {x : α} (d : α) (h : x ∈ l.drop n) :
    ∃ i, n ≤ i ∧ i < l.length ∧ l.getD i d = x := by
  induction l generalizing n with
  | nil => simp at h
  | cons a as ih =>
    cases n with
    | zero =>
      rcases List.mem_cons.mp (by simpa using h) with rfl | h'
      · exact ⟨0, by omega, by simp, rfl⟩
      · obtain ⟨i, h1, h2, h3⟩ := ih (n := 0) (by simpa using h')
        exact ⟨i+1, by omega, by simpa using h2, by simpa using h3⟩
    | succ n =>
      obtain ⟨i, h1, h2, h3⟩ := ih (by simpa using h)
      exact ⟨i+1, by omega, by simpa using h2, by simpa using h3⟩

theorem sortedLt_take {l : List Int} (h : sortedLt l = true) (n : Nat) :
    sortedLt (l.take n) = true :=
  pairwise_sortedLt ((sortedLt_pairwise h).sublist (List.take_sublist n l))

theorem sortedLt_drop {l : List Int} (h : sortedLt l = true) (n : Nat) :
    sortedLt (l.drop n) = true :=
  pairwise_sortedLt ((sortedLt_pairwise h).sublist (List.drop_sublist n l))

theorem heightL_take_le (l : List BNode) (n : Nat) : heightL (l.take n) ≤ heightL l := by
  induction l generalizing n with
  | nil => simp [heightL]
  | cons c cs ih =>
    cases n with
    | zero => simp [heightL]
    | succ n =>
      simp only [List.take_succ_cons, heightL]
      exact max_le_max le_rfl (ih n)

theorem heightL_drop_le (l : List BNode) (n : Nat) : heightL (l.drop n) ≤ heightL l := by
  induction l generalizing n with
  | nil => simp [heightL]
  | cons c cs ih =>
    cases n with
    | zero => simp
    | succ n =>
      simp only [List.drop_succ_cons, heightL]
      exact le_trans (ih n) (le_max_right _ _)

/-- Lower bound of the interval of `children[j]`. -/
def loAt (lo : Option Int) (ks : List Int) (j : Nat) : Option Int :=
  if j = 0 then lo else some (ks.getD (j-1) 0)

/-- Upper bound of the interval of `children[j]`. -/
def hiAt (hi : Option Int) (ks : List Int) (j : Nat) : Option Int :=
  if j < ks.length then some (ks.getD j 0) else hi

theorem wfSeq_get {t : Nat} :
    ∀ {cs : List BNode} {ks : List Int} {lo hi : Option Int},
      wfSeq t cs ks lo hi = true → ∀ {j}, j < cs.length →
      wf t (cs.getD j (.leaf [])) (loAt lo ks j) (hiAt hi ks j) = true ∧
      (j < ks.length → ks.getD j 0 ∈ chainKeys (cs.getD j (.leaf []))) := by
  intro cs
  induction cs with
  | nil => intro ks lo hi h j hj; simp at hj
  | cons c cs ih =>
    intro ks lo hi h j hj
    cases ks with
    | nil =>
      cases cs with
      | nil =>
        have hj0 : j = 0 := by simpa using hj
        subst hj0
        rw [wfSeq_single] at h
        exact ⟨by simpa [loAt, hiAt] using h.1, by simp⟩
      | cons c2 cs2 => rw [wfSeq_two_nil] at h; exact absurd h (by simp)
    | cons k ks =>
      rw [wfSeq_pair] at h
      obtain ⟨hwc, hmem, hlt, htail⟩ := h
      cases j with
      | zero =>
        refine ⟨by simpa [loAt, hiAt] using hwc, fun _ => by simpa using hmem⟩
      | succ j =>
        have hj' : j < cs.length := by simpa using hj
        obtain ⟨h1, h2⟩ := ih htail hj'
        constructor
        · have hLo : loAt lo (k :: ks) (j+1) = loAt (some k) ks j := by
            cases j <;> simp [loAt]
          have hHi : hiAt hi (k :: ks) (j+1) = hiAt hi ks j := by
            by_cases hc : j < ks.length <;> simp [hiAt, hc]
          rw [hLo, hHi]
          simpa using h1
        · intro hjk
          have := h2 (by simpa using hjk)
          simpa using this

theorem wfSeq_set {t : Nat} :
    ∀ {cs : List BNode} {ks : List Int} {lo hi : Option Int},
      wfSeq t cs ks lo hi = true → ∀ {j}, j < cs.length → ∀ {c' : BNode},
      wf t c' (loAt lo ks j) (hiAt hi ks j) = true →
      (j < ks.length → ks.getD j 0 ∈ chainKeys c') →
      wfSeq t (cs.set j c') ks lo hi = true := by
  intro cs
  induction cs with
  | nil => intro ks lo hi h j hj; simp at hj
  | cons c cs ih =>
    intro ks lo hi h j hj c' hw' hmem'
    cases ks with
    | nil =>
      cases cs with
      | nil =>
        have hj0 : j = 0 := by simpa using hj
        subst hj0
        simp only [List.set_cons_zero]
        rw [wfSeq_single] at h ⊢
        exact ⟨by simpa [loAt, hiAt] using hw', h.2⟩
      | cons c2 cs2 => rw [wfSeq_two_nil] at h; exact absurd h (by simp)
    | cons k ks =>
      rw [wfSeq_pair] at h
      obtain ⟨hwc, hmem, hlt, htail⟩ := h
      cases j with
      | zero =>
        simp only [List.set_cons_zero]
        rw [wfSeq_pair]
        exact ⟨by simpa [loAt, hiAt] using hw', by simpa using hmem' (by simp),
          hlt, htail⟩
      | succ j =>
        have hj' : j < cs.length := by simpa using hj
        have hLo : loAt lo (k :: ks) (j+1) = loAt (some k) ks j := by
          cases j <;> simp [loAt]
        have hHi : hiAt hi (k :: ks) (j+1) = hiAt hi ks j := by
          by_cases hc : j < ks.length <;> simp [hiAt, hc]
        rw [hLo, hHi] at hw'
        simp only [List.set_cons_succ]
        rw [wfSeq_pair]
        refine ⟨hwc, hmem, hlt, ih htail hj' hw' ?_⟩
        intro hjk
        have := hmem' (by simpa using hjk)
        simpa using this

theorem wfSeq_take {t : Nat} :
    ∀ {cs : List BNode} {ks : List Int} {lo hi : Option Int},
      wfSeq t cs ks lo hi = true → ∀ {j}, 1 ≤ j → j ≤ ks.length → j ≤ cs.length →
      wfSeq t (cs.take j) (ks.take j) lo (some (ks.getD (j-1) 0)) = true := by
  intro cs
  induction cs with
  | nil =>
    intro ks lo hi h j h1 h2 h3
    simp at h3
    omega
  | cons c cs ih =>
    intro ks lo hi h j h1 h2 h3
    cases ks with
    | nil => simp at h2; omega
    | cons k ks =>
      rw [wfSeq_pair] at h
      obtain ⟨hwc, hmem, hlt, htail⟩ := h
      cases j with
      | zero => omega
      | succ j =>
        cases j with
        | zero =>
          simp only [List.take_succ_cons, List.take_zero]
          rw [wfSeq_pair]
          refine ⟨hwc, hmem, hlt, ?_⟩
          rw [wfSeq_nil_nil]
          simp
        | succ j =>
          simp only [List.take_succ_cons]
          rw [wfSeq_pair]
          have := ih htail (j := j+1) (by omega) (by simpa using h2) (by simpa using h3)
          refine ⟨hwc, hmem, hlt, ?_⟩
          simpa using this

theorem wfSeq_drop {t : Nat} :
    ∀ {cs : List BNode} {ks : List Int} {lo hi : Option Int},
      wfSeq t cs ks lo hi = true → ∀ {j}, 1 ≤ j → j ≤ ks.length → j ≤ cs.length →
      wfSeq t (cs.drop j) (ks.drop j) (some (ks.getD (j-1) 0)) hi = true := by
  intro cs
  induction cs with
  | nil =>
    intro ks lo hi h j h1 h2 h3
    simp at h3
    omega
  | cons c cs ih =>
    intro ks lo hi h j h1 h2 h3
    cases ks with
    | nil => simp at h2; omega
    | cons k ks =>
      rw [wfSeq_pair] at h
      obtain ⟨hwc, hmem, hlt, htail⟩ := h
      cases j with
      | zero => omega
      | succ j =>
        cases j with
        | zero => simpa using htail
        | succ j =>
          have := ih htail (j := j+1) (by omega) (by simpa using h2) (by simpa using h3)
          simpa using this


/-! ### What `_split_child` does to the full child -/

/-- The node kept in place by `_split_child` (keys `[:t]`, children `[:t]`). -/
def splitL (t : Nat) : BNode → BNode
  | .leaf ks => .leaf (ks.take t)
  | .node ks cs => .node (ks.take t) (cs.take t)

/-- The new right sibling made by `_split_child` (keys `[t:]`, children `[t:]`). -/
def splitR (t : Nat) : BNode → BNode
  | .leaf ks => .leaf (ks.drop t)
  | .node ks cs => .node (ks.drop t) (cs.drop t)

theorem splitChild_eq (t : Nat) (ks : List Int) (cs : List BNode) (i : Nat) :
    splitChild t ks cs i =
      (insAt i ((keysOf (cs.getD i (.leaf []))).getD (t-1) 0) ks,
       insAt (i+1) (splitR t (cs.getD i (.leaf [])))
         (cs.set i (splitL t (cs.getD i (.leaf []))))) := by
  cases hy : cs.getD i (.leaf []) with
  | leaf yks => unfold splitChild; rw [hy]; simp [splitL, splitR, keysOf]
  | node yks ycs => unfold splitChild; rw [hy]; simp [splitL, splitR, keysOf]

theorem split_node_content {t : Nat} (ht : 2 ≤ t) {y : BNode} {a b : Option Int}
    (hw : wf t y a b = true) (hfull : (keysOf y).length = 2*t - 1) :
    wf t (splitL t y) a (some ((keysOf y).getD (t-1) 0)) = true ∧
    wf t (splitR t y) (some ((keysOf y).getD (t-1) 0)) b = true ∧
    (keysOf y).getD (t-1) 0 ∈ chainKeys (splitL t y) ∧
    chainKeys (splitL t y) ++ chainKeys (splitR t y) = chainKeys y ∧
    optLT a ((keysOf y).getD (t-1) 0) = true ∧
    optLEr ((keysOf y).getD (t-1) 0) b = true ∧
    (∀ v, b = some v → (keysOf y).getD (t-1) 0 < v ∧
      (v ∈ chainKeys y → v ∈ chainKeys (splitR t y))) ∧
    (keysOf (splitL t y)).length = t ∧
    (keysOf (splitR t y)).length = t - 1 ∧
    heightB (splitL t y) ≤ heightB y ∧
    heightB (splitR t y) ≤ heightB y := by
  cases y with
  | leaf yks =>
    simp only [keysOf] at hfull ⊢
    rw [wf_leaf_iff] at hw
    obtain ⟨hs, hb, hlen⟩ := hw
    have hb' := boundsOk_iff.mp hb
    have ht1 : t - 1 < yks.length := by omega
    have ht2 : 2*t - 2 < yks.length := by omega
    have hsep_mem : yks.getD (t-1) 0 ∈ yks := getD_mem _ ht1
    have hlastle : ∀ v, b = some v → yks.getD (2*t-2) 0 ≤ v := by
      intro v hv
      have := (hb' _ (getD_mem 0 ht2)).2
      rw [hv] at this
      simpa [optLEr] using this
    have hseplast : yks.getD (t-1) 0 < yks.getD (2*t-2) 0 :=
      sorted_getD_lt hs (by omega) ht2
    have hTakeLe : ∀ x ∈ yks.take t, x ≤ yks.getD (t-1) 0 := by
      intro x hx
      obtain ⟨i, hi1, hi2, hi3⟩ := mem_take_getD 0 hx
      rcases Nat.lt_or_ge i (t-1) with hc | hc
      · have := sorted_getD_lt hs hc ht1
        omega
      · have : i = t - 1 := by omega
        subst this
        omega
    have hDropGt : ∀ x ∈ yks.drop t, yks.getD (t-1) 0 < x := by
      intro x hx
      obtain ⟨i, hi1, hi2, hi3⟩ := mem_drop_getD 0 (l := yks) (by simpa using hx)
      have := sorted_getD_lt hs (show t-1 < i by omega) hi2
      omega
    refine ⟨?_, ?_, ?_, ?_, ?_, ?_, ?_, ?_, ?_, ?_, ?_⟩
    · simp only [splitL]
      rw [wf_leaf_iff]
      refine ⟨sortedLt_take hs t, boundsOk_iff.mpr ?_, by rw [List.length_take]; omega⟩
      intro x hx
      refine ⟨(hb' x (List.take_subset _ _ hx)).1, ?_⟩
      simpa [optLEr] using hTakeLe x hx
    · simp only [splitR]
      rw [wf_leaf_iff]
      refine ⟨sortedLt_drop hs t, boundsOk_iff.mpr ?_, by rw [List.length_drop]; omega⟩
      intro x hx
      exact ⟨by simpa [optLT] using hDropGt x hx, (hb' x (List.drop_subset _ _ hx)).2⟩
    · simp only [splitL, chainKeys_leaf]
      have heq : (yks.take t).getD (t-1) 0 = yks.getD (t-1) 0 := getD_take 0 (by omega)
      rw [← heq]
      exact getD_mem 0 (by rw [List.length_take]; omega)
    · simp [splitL, splitR]
    · exact (hb' _ hsep_mem).1
    · exact (hb' _ hsep_mem).2
    · intro v hv
      have h1 : yks.getD (t-1) 0 < v := lt_of_lt_of_le hseplast (hlastle v hv)
      refine ⟨h1, ?_⟩
      intro hvy
      rw [chainKeys_leaf] at hvy
      simp only [splitR, chainKeys_leaf]
      have hvy' : v ∈ yks.take t ++ yks.drop t := by
        rw [List.take_append_drop]; exact hvy
      rcases List.mem_append.mp hvy' with hvt | hvd
      · exact absurd (hTakeLe v hvt) (by omega)
      · exact hvd
    · simp [splitL, keysOf]; omega
    · simp [splitR, keysOf]; omega
    · simp [splitL, heightB]
    · simp [splitR, heightB]
  | node yks ycs =>
    simp only [keysOf] at hfull ⊢
    rw [wf_node_iff] at hw
    obtain ⟨hne, hlen, hseq⟩ := hw
    have hsorted : sortedLt yks = true := wfSeq_sorted hseq
    have hkf := wfSeq_keys_facts hseq
    have hlencs : ycs.length = yks.length + 1 ∨ ycs.length = yks.length := wfSeq_len hseq
    have ht1 : t - 1 < yks.length := by omega
    have ht2 : 2*t - 2 < yks.length := by omega
    have htcs : t ≤ ycs.length := by omega
    have hsep_mem : yks.getD (t-1) 0 ∈ yks := getD_mem _ ht1
    have hTake := wfSeq_take hseq (j := t) (by omega) (by omega) htcs
    have hDrop := wfSeq_drop hseq (j := t) (by omega) (by omega) htcs
    have hwl : wf t (splitL t (BNode.node yks ycs)) a (some (yks.getD (t-1) 0)) = true := by
      simp only [splitL]
      rw [wf_node_iff]
      refine ⟨?_, by rw [List.length_take]; omega, ?_⟩
      · intro hc
        have : (yks.take t).length = t := by simp; omega
        rw [hc] at this
        simp at this
        omega
      · simpa using hTake
    have hwr : wf t (splitR t (BNode.node yks ycs)) (some (yks.getD (t-1) 0)) b = true := by
      simp only [splitR]
      rw [wf_node_iff]
      refine ⟨?_, by rw [List.length_drop]; omega, ?_⟩
      · intro hc
        have : (yks.drop t).length = yks.length - t := by simp
        rw [hc] at this
        simp at this
        omega
      · simpa using hDrop
    have hsep_in : yks.getD (t-1) 0 ∈ chainKeys (splitL t (BNode.node yks ycs)) := by
      simp only [splitL, chainKeys_node]
      have hmem : yks.getD (t-1) 0 ∈ yks.take t := by
        have heq : (yks.take t).getD (t-1) 0 = yks.getD (t-1) 0 := getD_take 0 (by omega)
        rw [← heq]
        exact getD_mem 0 (by rw [List.length_take]; omega)
      exact (wfSeq_keys_facts hTake _ hmem).1
    have hconcat : chainKeys (splitL t (BNode.node yks ycs)) ++
        chainKeys (splitR t (BNode.node yks ycs)) = chainKeys (BNode.node yks ycs) := by
      simp only [splitL, splitR, chainKeys_node]
      rw [← chainSeq_append, List.take_append_drop]
    refine ⟨hwl, hwr, hsep_in, hconcat, (hkf _ hsep_mem).2.1, (hkf _ hsep_mem).2.2, ?_,
      by simp [splitL, keysOf]; omega, by simp [splitR, keysOf]; omega,
      by simp only [splitL, heightB]; exact Nat.succ_le_succ (heightL_take_le ycs t),
      by simp only [splitR, heightB]; exact Nat.succ_le_succ (heightL_drop_le ycs t)⟩
    intro v hv
    have hlast_mem : yks.getD (2*t-2) 0 ∈ yks := getD_mem _ ht2
    have hlastle : yks.getD (2*t-2) 0 ≤ v := by
      have := (hkf _ hlast_mem).2.2
      rw [hv] at this
      simpa [optLEr] using this
    have hseplast : yks.getD (t-1) 0 < yks.getD (2*t-2) 0 :=
      sorted_getD_lt hsorted (by omega) ht2
    refine ⟨by omega, ?_⟩
    intro hvy
    have hbound := (wf_chain _ _ _ hwl).2
    rw [← hconcat] at hvy
    rcases List.mem_append.mp hvy with hvl | hvr
    · have := (hbound v hvl).2
      have : v ≤ yks.getD (t-1) 0 := by simpa [optLEr] using this
      omega
    · exact hvr


theorem splitChild_cons (t : Nat) (k : Int) (ks : List Int) (c : BNode)
    (cs : List BNode) (i : Nat) :
    splitChild t (k :: ks) (c :: cs) (i+1) =
      (k :: (splitChild t ks cs i).1, c :: (splitChild t ks cs i).2) := by
  rw [splitChild_eq, splitChild_eq]
  simp [insAt, List.set_cons_succ]

theorem splitChild_zero (t : Nat) (ks : List Int) (c : BNode) (cs : List BNode) :
    splitChild t ks (c :: cs) 0 =
      ((keysOf c).getD (t-1) 0 :: ks, splitL t c :: splitR t c :: cs) := by
  rw [splitChild_eq]
  simp [insAt]

theorem wfSeq_split {t : Nat} (ht : 2 ≤ t) :
    ∀ {cs : List BNode} {ks : List Int} {lo hi : Option Int},
      wfSeq t cs ks lo hi = true →
      ∀ {i}, i < cs.length →
      (keysOf (cs.getD i (.leaf []))).length = 2*t - 1 →
      wfSeq t (splitChild t ks cs i).2 (splitChild t ks cs i).1 lo hi = true ∧
      chainSeq (splitChild t ks cs i).2 = chainSeq cs := by
  intro cs
  induction cs with
  | nil => intro ks lo hi h i hi1 hi2; simp at hi1
  | cons c cs ih =>
    intro ks lo hi h i hi1 hfull
    cases i with
    | zero =>
      simp only [List.getD_cons_zero] at hfull
      rw [splitChild_zero]
      cases ks with
      | nil =>
        cases cs with
        | nil =>
          rw [wfSeq_single] at h
          obtain ⟨hwc, hle⟩ := h
          obtain ⟨hwl, hwr, hsep, hcat, hlosep, hsephi, _, _, _, _, _⟩ :=
            split_node_content ht hwc hfull
          constructor
          · rw [wfSeq_pair]
            refine ⟨hwl, hsep, hlosep, ?_⟩
            rw [wfSeq_single]
            exact ⟨hwr, by rw [optLE2_some]; exact hsephi⟩
          · simp [← hcat]
        | cons c2 cs2 => rw [wfSeq_two_nil] at h; exact absurd h (by simp)
      | cons k ks =>
        rw [wfSeq_pair] at h
        obtain ⟨hwc, hmem, hlt, htail⟩ := h
        obtain ⟨hwl, hwr, hsep, hcat, hlosep, hsephi, hv, _, _, _, _⟩ :=
          split_node_content ht hwc hfull
        constructor
        · rw [wfSeq_pair]
          refine ⟨hwl, hsep, hlosep, ?_⟩
          rw [wfSeq_pair]
          exact ⟨hwr, ((hv k rfl).2 hmem), by simpa [optLT] using (hv k rfl).1, htail⟩
        · simp only [chainSeq_cons, ← hcat]
          simp [List.append_assoc]
    | succ i =>
      cases ks with
      | nil =>
        cases cs with
        | nil => simp at hi1
        | cons c2 cs2 => rw [wfSeq_two_nil] at h; exact absurd h (by simp)
      | cons k ks =>
        rw [wfSeq_pair] at h
        obtain ⟨hwc, hmem, hlt, htail⟩ := h
        have hfull' : (keysOf (cs.getD i (.leaf []))).length = 2*t - 1 := by
          simpa using hfull
        have hi1' : i < cs.length := by simpa using hi1
        obtain ⟨ihw, ihc⟩ := ih htail hi1' hfull'
        rw [splitChild_cons]
        constructor
        · rw [wfSeq_pair]
          exact ⟨hwc, hmem, hlt, ihw⟩
        · simp [ihc]


/-! ### Insertion: main preservation lemma -/

/-- `k` is strictly below the (optional) upper bound — the property that the
descent maintains for the key being inserted. -/
def belowTop (k : Int) : Option Int → Bool
  | none => true
  | some h => decide (k < h)

theorem insertNonFull_leaf (fuel t : Nat) (k : Int) (ks : List Int) :
    insertNonFull (fuel+1) t k (.leaf ks) = .leaf (insertKey k ks) := rfl

theorem insertNonFull_node_notfull (fuel t : Nat) (k : Int) (ks : List Int)
    (cs : List BNode)
    (h : ¬ (keysOf (cs.getD (splitPos k ks) (.leaf []))).length = 2*t - 1) :
    insertNonFull (fuel+1) t k (.node ks cs) =
      .node ks (cs.set (splitPos k ks)
        (insertNonFull fuel t k (cs.getD (splitPos k ks) (.leaf [])))) := by
  simp only [insertNonFull]
  rw [if_neg h]

theorem insertNonFull_node_full (fuel t : Nat) (k : Int) (ks : List Int)
    (cs : List BNode)
    (h : (keysOf (cs.getD (splitPos k ks) (.leaf []))).length = 2*t - 1) :
    insertNonFull (fuel+1) t k (.node ks cs) =
      .node (splitChild t ks cs (splitPos k ks)).1
        ((splitChild t ks cs (splitPos k ks)).2.set
          (if k > (splitChild t ks cs (splitPos k ks)).1.getD (splitPos k ks) 0
           then splitPos k ks + 1 else splitPos k ks)
          (insertNonFull fuel t k
            ((splitChild t ks cs (splitPos k ks)).2.getD
              (if k > (splitChild t ks cs (splitPos k ks)).1.getD (splitPos k ks) 0
               then splitPos k ks + 1 else splitPos k ks) (.leaf [])))) := by
  simp only [insertNonFull]
  rw [if_pos h]

theorem get?_eq_some_getD {α : Type} {l : List α} {j : Nat} (d : α)
    (h : j < l.length) : l.get? j = some (l.getD j d) := by
  induction l generalizing j with
  | nil => simp at h
  | cons a l ih =>
    cases j with
    | zero => rfl
    | succ j => simpa using ih (by simpa using h)

theorem insertNonFullM_leaf (fuel t : Nat) (k : Int) (ks : List Int) :
    insertNonFullM (fuel+1) t k (.leaf ks) = .ok (.leaf (insertKey k ks)) := rfl

/-- When the scanned child subscript is in range and the child is not full,
`insertNonFullM` descends exactly like `insertNonFull`. -/
theorem insertNonFullM_node_notfull (fuel t : Nat) (k : Int) (ks : List Int)
    (cs : List BNode) (c' : BNode)
    (hlt : splitPos k ks < cs.length)
    (h : ¬ (keysOf (cs.getD (splitPos k ks) (.leaf []))).length = 2*t - 1)
    (hr : insertNonFullM fuel t k (cs.getD (splitPos k ks) (.leaf [])) = .ok c') :
    insertNonFullM (fuel+1) t k (.node ks cs) =
      .ok (.node ks (cs.set (splitPos k ks) c')) := by
  have hg : cs.get? (splitPos k ks) =
      some (cs.getD (splitPos k ks) (BNode.leaf [])) :=
    get?_eq_some_getD (BNode.leaf []) hlt
  simp only [insertNonFullM, hg, if_neg h, hr]

/-- When the scanned child subscript is in range and the child is full,
`insertNonFullM` splits and descends exactly like `insertNonFull`. -/
theorem insertNonFullM_node_full (fuel t : Nat) (k : Int) (ks : List Int)
    (cs : List BNode) (c' : BNode)
    (hlt : splitPos k ks < cs.length)
    (h : (keysOf (cs.getD (splitPos k ks) (.leaf []))).length = 2*t - 1)
    (hr : insertNonFullM fuel t k
        ((splitChild t ks cs (splitPos k ks)).2.getD
          (if k > (splitChild t ks cs (splitPos k ks)).1.getD (splitPos k ks) 0
           then splitPos k ks + 1 else splitPos k ks) (.leaf [])) = .ok c') :
    insertNonFullM (fuel+1) t k (.node ks cs) =
      .ok (.node (splitChild t ks cs (splitPos k ks)).1
        ((splitChild t ks cs (splitPos k ks)).2.set
          (if k > (splitChild t ks cs (splitPos k ks)).1.getD (splitPos k ks) 0
           then splitPos k ks + 1 else splitPos k ks) c')) := by
  have hg : cs.get? (splitPos k ks) =
      some (cs.getD (splitPos k ks) (BNode.leaf [])) :=
    get?_eq_some_getD (BNode.leaf []) hlt
  have hlen2 : (splitChild t ks cs (splitPos k ks)).2.length = cs.length + 1 := by
    rw [splitChild_eq]
    simp [length_insAt]
  have hi2 : (if k > (splitChild t ks cs (splitPos k ks)).1.getD (splitPos k ks) 0
      then splitPos k ks + 1 else splitPos k ks) <
      (splitChild t ks cs (splitPos k ks)).2.length := by
    rw [hlen2]
    split <;> omega
  have hg2 : (splitChild t ks cs (splitPos k ks)).2.get?
      (if k > (splitChild t ks cs (splitPos k ks)).1.getD (splitPos k ks) 0
       then splitPos k ks + 1 else splitPos k ks) =
      some ((splitChild t ks cs (splitPos k ks)).2.getD
        (if k > (splitChild t ks cs (splitPos k ks)).1.getD (splitPos k ks) 0
         then splitPos k ks + 1 else splitPos k ks) (BNode.leaf [])) :=
    get?_eq_some_getD (BNode.leaf []) hi2
  simp only [insertNonFullM, hg, if_pos h, hg2, hr]

theorem perm_replace_middle {A B C C' : List Int} {k : Int}
    (h : C'.Perm (k :: C)) : (A ++ C' ++ B).Perm (k :: (A ++ C ++ B)) := by
  have h1 : (A ++ (C' ++ B)).Perm (A ++ (k :: (C ++ B))) :=
    ((h.append_right B).append_left A)
  have h2 : (A ++ (k :: (C ++ B))).Perm (k :: (A ++ (C ++ B))) := List.perm_middle
  have h3 := h1.trans h2
  have e1 : A ++ C' ++ B = A ++ (C' ++ B) := by simp [List.append_assoc]
  have e2 : A ++ C ++ B = A ++ (C ++ B) := by simp [List.append_assoc]
  rw [e1, e2]
  exact h3

theorem chainSeq_set_perm (cs : List BNode) (j : Nat) (c' : BNode) (k : Int)
    (hj : j < cs.length)
    (h : (chainKeys c').Perm (k :: chainKeys (cs.getD j (.leaf [])))) :
    (chainSeq (cs.set j c')).Perm (k :: chainSeq cs) := by
  rw [chainSeq_set _ _ hj]
  have hgoal := perm_replace_middle (A := chainSeq (cs.take j))
    (B := chainSeq (cs.drop (j+1))) h
  rw [chainSeq_decomp cs hj]
  exact hgoal

theorem loAt_insAt_self (lo : Option Int) {ks : List Int} {i : Nat} (a : Int)
    (h : i ≤ ks.length) : loAt lo (insAt i a ks) i = loAt lo ks i := by
  cases i with
  | zero => simp [loAt]
  | succ i =>
    unfold loAt
    rw [if_neg (by omega : ¬ i + 1 = 0), if_neg (by omega : ¬ i + 1 = 0),
      Nat.add_sub_cancel, getD_insAt_lt a ks 0 (by omega) h]

theorem hiAt_insAt_self (hi : Option Int) {ks : List Int} {i : Nat} (a : Int)
    (h : i ≤ ks.length) : hiAt hi (insAt i a ks) i = some a := by
  have h1 : i < (insAt i a ks).length := by rw [length_insAt]; omega
  unfold hiAt
  rw [if_pos h1, getD_insAt_self a ks 0 h]

theorem loAt_insAt_succ (lo : Option Int) {ks : List Int} {i : Nat} (a : Int)
    (h : i ≤ ks.length) : loAt lo (insAt i a ks) (i+1) = some a := by
  unfold loAt
  rw [if_neg (by omega : ¬ i + 1 = 0), Nat.add_sub_cancel,
    getD_insAt_self a ks 0 h]

theorem hiAt_insAt_succ (hi : Option Int) {ks : List Int} {i : Nat} (a : Int)
    (h : i ≤ ks.length) : hiAt hi (insAt i a ks) (i+1) = hiAt hi ks i := by
  unfold hiAt
  by_cases hc : i < ks.length
  · have h1 : i + 1 < (insAt i a ks).length := by rw [length_insAt]; omega
    rw [if_pos h1, if_pos hc, getD_insAt_gt a ks 0 (by omega) h,
      Nat.add_sub_cancel]
  · have h1 : ¬ (i + 1 < (insAt i a ks).length) := by rw [length_insAt]; omega
    rw [if_neg h1, if_neg hc]


theorem optLT_some_iff {a k : Int} : optLT (some a) k = true ↔ a < k := by
  simp [optLT]

theorem belowTop_some_iff {k h : Int} : belowTop k (some h) = true ↔ k < h := by
  simp [belowTop]

/-- Main lemma: on a well-formed subtree that is not full, inserting a fresh
key `k` lying in the subtree's interval adds exactly `k` to the leaf chain
and preserves well-formedness; moreover every child subscript read during
the descent is in range, so the crash-aware model completes normally with
the same tree. -/
theorem insertNonFull_spec {t : Nat} (ht : 2 ≤ t) :
    ∀ (fuel : Nat) (k : Int) (x : BNode) (lo hi : Option Int),
      wf t x lo hi = true →
      (keysOf x).length ≠ 2*t - 1 →
      belowTop k hi = true →
      optLT lo k = true →
      k ∉ chainKeys x →
      heightB x < fuel →
      (chainKeys (insertNonFull fuel t k x)).Perm (k :: chainKeys x) ∧
      wf t (insertNonFull fuel t k x) lo hi = true ∧
      insertNonFullM fuel t k x = .ok (insertNonFull fuel t k x) := by
  intro fuel
  induction fuel with
  | zero => intro k x lo hi _ _ _ _ _ hfuel; omega
  | succ fuel ih =>
    intro k x lo hi hw hnf hbt hlo hfresh hfuel
    cases x with
    | leaf ks =>
      rw [insertNonFull_leaf]
      rw [wf_leaf_iff] at hw
      obtain ⟨hs, hb, hl⟩ := hw
      rw [chainKeys_leaf] at hfresh
      simp only [keysOf] at hnf
      refine ⟨?_, ?_, insertNonFullM_leaf fuel t k ks⟩
      · simp only [chainKeys_leaf]
        exact insertKey_perm k ks
      · rw [wf_leaf_iff]
        refine ⟨insertKey_sorted hs hfresh, boundsOk_iff.mpr ?_, ?_⟩
        · intro a ha
          have ha' := (insertKey_perm k ks).mem_iff.mp ha
          rcases List.mem_cons.mp ha' with rfl | ha2
          · refine ⟨hlo, ?_⟩
            cases hi with
            | none => rfl
            | some h =>
              have : a < h := by simpa [belowTop] using hbt
              simp [optLEr]
              omega
          · exact boundsOk_iff.mp hb a ha2
        · have := (insertKey_perm k ks).length_eq
          simp only [List.length_cons] at this
          omega
    | node ks cs =>
      rw [wf_node_iff] at hw
      obtain ⟨hne, hlen, hseq⟩ := hw
      simp only [keysOf] at hnf
      simp only [chainKeys_node] at hfresh
      have hile : splitPos k ks ≤ ks.length := splitPos_le_length k ks
      have hkslen : 1 ≤ ks.length := by
        cases ks with
        | nil => exact absurd rfl hne
        | cons a l => simp
      have hics : splitPos k ks < cs.length := by
        rcases wfSeq_len hseq with hn | hb
        · omega
        · by_contra hcon
          have hieq : splitPos k ks = ks.length := by omega
          have hsg := splitPos_get_le k ks
            (i := ks.length - 1) (by omega)
          have hhi := wfSeq_broken_hi hseq hb hne
          rw [hhi] at hbt
          have : k < ks.getD (ks.length - 1) 0 := by simpa [belowTop] using hbt
          omega
      obtain ⟨hwc, hcm⟩ := wfSeq_get hseq hics
      have hlo_child : optLT (loAt lo ks (splitPos k ks)) k = true := by
        rcases Nat.eq_zero_or_pos (splitPos k ks) with h0 | hpos
        · rw [h0]; simpa [loAt] using hlo
        · have hsg := splitPos_get_le k ks
            (i := splitPos k ks - 1) (by omega)
          have hmem : ks.getD (splitPos k ks - 1) 0 ∈ ks := getD_mem _ hsg.2
          have hinc := (wfSeq_keys_facts hseq _ hmem).1
          have hnek : ks.getD (splitPos k ks - 1) 0 ≠ k := fun he => hfresh (he ▸ hinc)
          unfold loAt
          rw [if_neg (by omega), optLT_some_iff]
          omega
      have hhi_child : belowTop k (hiAt hi ks (splitPos k ks)) = true := by
        unfold hiAt
        by_cases hc : splitPos k ks < ks.length
        · rw [if_pos hc, belowTop_some_iff]
          exact splitPos_after k ks (le_refl _) hc
        · rw [if_neg hc]
          exact hbt
      have hfresh_child : k ∉ chainKeys (cs.getD (splitPos k ks) (.leaf [])) :=
        fun hm => hfresh (chainKeys_getD_sublist cs hics hm)
      have hfuel_child : heightB (cs.getD (splitPos k ks) (.leaf [])) < fuel := by
        have h1 := heightB_getD_lt ks cs hics
        omega
      by_cases hfc : (keysOf (cs.getD (splitPos k ks) (.leaf []))).length = 2*t - 1
      · -- full child: split first, then descend into one of the halves
        obtain ⟨hwl, hwr, hsepin, hcat, hlosep, hsephi, hv, hlenl, hlenr, hhtl, hhtr⟩ :=
          split_node_content ht hwc hfc
        obtain ⟨hspw, hspc⟩ := wfSeq_split ht hseq hics hfc
        rw [insertNonFull_node_full fuel t k ks cs hfc]
        have hp1 : (splitChild t ks cs (splitPos k ks)).1 =
            insAt (splitPos k ks)
              ((keysOf (cs.getD (splitPos k ks) (.leaf []))).getD (t-1) 0) ks := by
          rw [splitChild_eq]
        have hp2 : (splitChild t ks cs (splitPos k ks)).2 =
            insAt (splitPos k ks + 1)
              (splitR t (cs.getD (splitPos k ks) (.leaf [])))
              (cs.set (splitPos k ks)
                (splitL t (cs.getD (splitPos k ks) (.leaf [])))) := by
          rw [splitChild_eq]
        have hlen1 : (splitChild t ks cs (splitPos k ks)).1.length = ks.length + 1 := by
          rw [hp1, length_insAt]
        have hlen2 : (splitChild t ks cs (splitPos k ks)).2.length = cs.length + 1 := by
          rw [hp2, length_insAt, List.length_set]
        have hgi : (splitChild t ks cs (splitPos k ks)).1.getD (splitPos k ks) 0 =
            (keysOf (cs.getD (splitPos k ks) (.leaf []))).getD (t-1) 0 := by
          rw [hp1]
          exact getD_insAt_self _ _ _ hile
        have hg2i : (splitChild t ks cs (splitPos k ks)).2.getD (splitPos k ks)
            (.leaf []) = splitL t (cs.getD (splitPos k ks) (.leaf [])) := by
          rw [hp2, getD_insAt_lt _ _ _ (by omega) (by rw [List.length_set]; omega),
            getD_set_self _ _ _ hics]
        have hg2si : (splitChild t ks cs (splitPos k ks)).2.getD (splitPos k ks + 1)
            (.leaf []) = splitR t (cs.getD (splitPos k ks) (.leaf [])) := by
          rw [hp2, getD_insAt_self _ _ _ (by rw [List.length_set]; omega)]
        have hsy : (keysOf (cs.getD (splitPos k ks) (.leaf []))).getD (t-1) 0 ∈
            chainKeys (cs.getD (splitPos k ks) (.leaf [])) := by
          rw [← hcat]
          exact List.mem_append_left _ hsepin
        have hsepin2 : (keysOf (cs.getD (splitPos k ks) (.leaf []))).getD (t-1) 0 ∈
            chainSeq cs := chainKeys_getD_sublist cs hics hsy
        have hksep : k ≠ (keysOf (cs.getD (splitPos k ks) (.leaf []))).getD (t-1) 0 :=
          fun he => hfresh (by rw [he]; exact hsepin2)
        rw [hgi]
        by_cases hk : k > (keysOf (cs.getD (splitPos k ks) (.leaf []))).getD (t-1) 0
        · -- descend into the new right sibling
          rw [if_pos hk]
          have hnf2 : (keysOf (splitR t (cs.getD (splitPos k ks) (.leaf [])))).length ≠
              2*t - 1 := by omega
          have hfresh2 : k ∉ chainKeys (splitR t (cs.getD (splitPos k ks) (.leaf []))) := by
            intro hm
            exact hfresh_child (by rw [← hcat]; exact List.mem_append_right _ hm)
          have hfuel2 : heightB (splitR t (cs.getD (splitPos k ks) (.leaf []))) < fuel := by
            omega
          have ihr := ih k (splitR t (cs.getD (splitPos k ks) (.leaf [])))
            (some ((keysOf (cs.getD (splitPos k ks) (.leaf []))).getD (t-1) 0))
            (hiAt hi ks (splitPos k ks)) hwr hnf2 hhi_child
            (by rw [optLT_some_iff]; omega) hfresh2 hfuel2
          rw [hg2si]
          refine ⟨?_, ?_, ?_⟩
          · simp only [chainKeys_node]
            have hperm := chainSeq_set_perm
              ((splitChild t ks cs (splitPos k ks)).2)
              (splitPos k ks + 1)
              (insertNonFull fuel t k
                (splitR t (cs.getD (splitPos k ks) (.leaf [])))) k
              (by omega)
              (by rw [hg2si]; exact ihr.1)
            rw [hspc] at hperm
            exact hperm
          · rw [wf_node_iff]
            refine ⟨?_, by omega, ?_⟩
            · intro hc
              rw [hc] at hlen1
              simp at hlen1
            · refine wfSeq_set hspw (by omega) ?_ ?_
              · rw [hp1, loAt_insAt_succ lo _ hile, hiAt_insAt_succ hi _ hile]
                exact ihr.2.1
              · intro hlt2
                rw [hlen1] at hlt2
                have hikl : splitPos k ks < ks.length := by omega
                have hgks : (splitChild t ks cs (splitPos k ks)).1.getD
                    (splitPos k ks + 1) 0 = ks.getD (splitPos k ks) 0 := by
                  rw [hp1, getD_insAt_gt _ _ _ (by omega) hile, Nat.add_sub_cancel]
                rw [hgks]
                have hmem1 := hcm hikl
                have hhiv : hiAt hi ks (splitPos k ks) = some (ks.getD (splitPos k ks) 0) := by
                  unfold hiAt
                  rw [if_pos hikl]
                have hmem2 := (hv _ hhiv).2 hmem1
                exact ihr.1.mem_iff.mpr (List.mem_cons_of_mem _ hmem2)
          · have hr : insertNonFullM fuel t k
                ((splitChild t ks cs (splitPos k ks)).2.getD
                  (if k > (splitChild t ks cs (splitPos k ks)).1.getD
                      (splitPos k ks) 0
                   then splitPos k ks + 1 else splitPos k ks) (.leaf [])) =
                .ok (insertNonFull fuel t k
                  (splitR t (cs.getD (splitPos k ks) (.leaf [])))) := by
              rw [hgi, if_pos hk, hg2si]
              exact ihr.2.2
            rw [insertNonFullM_node_full fuel t k ks cs _ hics hfc hr, hgi,
              if_pos hk]
        · -- descend into the (kept) left half
          rw [if_neg hk]
          have hklt : k < (keysOf (cs.getD (splitPos k ks) (.leaf []))).getD (t-1) 0 := by
            omega
          have hnf2 : (keysOf (splitL t (cs.getD (splitPos k ks) (.leaf [])))).length ≠
              2*t - 1 := by omega
          have hfresh2 : k ∉ chainKeys (splitL t (cs.getD (splitPos k ks) (.leaf []))) := by
            intro hm
            exact hfresh_child (by rw [← hcat]; exact List.mem_append_left _ hm)
          have hfuel2 : heightB (splitL t (cs.getD (splitPos k ks) (.leaf []))) < fuel := by
            omega
          have ihl := ih k (splitL t (cs.getD (splitPos k ks) (.leaf [])))
            (loAt lo ks (splitPos k ks))
            (some ((keysOf (cs.getD (splitPos k ks) (.leaf []))).getD (t-1) 0))
            hwl hnf2 (by rw [belowTop_some_iff]; omega) hlo_child hfresh2 hfuel2
          rw [hg2i]
          refine ⟨?_, ?_, ?_⟩
          · simp only [chainKeys_node]
            have hperm := chainSeq_set_perm
              ((splitChild t ks cs (splitPos k ks)).2)
              (splitPos k ks)
              (insertNonFull fuel t k
                (splitL t (cs.getD (splitPos k ks) (.leaf [])))) k
              (by omega)
              (by rw [hg2i]; exact ihl.1)
            rw [hspc] at hperm
            exact hperm
          · rw [wf_node_iff]
            refine ⟨?_, by omega, ?_⟩
            · intro hc
              rw [hc] at hlen1
              simp at hlen1
            · refine wfSeq_set hspw (by omega) ?_ ?_
              · rw [hp1, loAt_insAt_self lo _ hile, hiAt_insAt_self hi _ hile]
                exact ihl.2.1
              · intro hlt2
                rw [hp1, getD_insAt_self _ _ _ hile]
                exact ihl.1.mem_iff.mpr (List.mem_cons_of_mem _ hsepin)
          · have hr : insertNonFullM fuel t k
                ((splitChild t ks cs (splitPos k ks)).2.getD
                  (if k > (splitChild t ks cs (splitPos k ks)).1.getD
                      (splitPos k ks) 0
                   then splitPos k ks + 1 else splitPos k ks) (.leaf [])) =
                .ok (insertNonFull fuel t k
                  (splitL t (cs.getD (splitPos k ks) (.leaf [])))) := by
              rw [hgi, if_neg hk, hg2i]
              exact ihl.2.2
            rw [insertNonFullM_node_full fuel t k ks cs _ hics hfc hr, hgi,
              if_neg hk]
      · -- child not full: plain descent
        rw [insertNonFull_node_notfull fuel t k ks cs hfc]
        have ihc := ih k (cs.getD (splitPos k ks) (.leaf []))
          (loAt lo ks (splitPos k ks)) (hiAt hi ks (splitPos k ks))
          hwc hfc hhi_child hlo_child hfresh_child hfuel_child
        refine ⟨?_, ?_, ?_⟩
        · simp only [chainKeys_node]
          exact chainSeq_set_perm _ _ _ _ hics ihc.1
        · rw [wf_node_iff]
          refine ⟨hne, hlen, wfSeq_set hseq hics ihc.2.1 ?_⟩
          intro hik
          exact ihc.1.mem_iff.mpr (List.mem_cons_of_mem _ (hcm hik))
        · exact insertNonFullM_node_notfull fuel t k ks cs _ hics hfc ihc.2.2


theorem insert_eq_full (t : Nat) (k : Int) (x : BNode)
    (h : (keysOf x).length = 2*t - 1) :
    insert t k x =
      insertNonFull (heightB (.node (splitChild t [] [x] 0).1
        (splitChild t [] [x] 0).2) + 1) t k
        (.node (splitChild t [] [x] 0).1 (splitChild t [] [x] 0).2) := by
  unfold insert
  rw [if_pos h]

theorem insert_eq_notfull (t : Nat) (k : Int) (x : BNode)
    (h : ¬ (keysOf x).length = 2*t - 1) :
    insert t k x = insertNonFull (heightB x + 1) t k x := by
  unfold insert
  rw [if_neg h]

theorem insertM_eq_full (t : Nat) (k : Int) (x : BNode)
    (h : (keysOf x).length = 2*t - 1) :
    insertM t k x =
      insertNonFullM (heightB (.node (splitChild t [] [x] 0).1
        (splitChild t [] [x] 0).2) + 1) t k
        (.node (splitChild t [] [x] 0).1 (splitChild t [] [x] 0).2) := by
  unfold insertM
  rw [if_pos h]

theorem insertM_eq_notfull (t : Nat) (k : Int) (x : BNode)
    (h : ¬ (keysOf x).length = 2*t - 1) :
    insertM t k x = insertNonFullM (heightB x + 1) t k x := by
  unfold insertM
  rw [if_neg h]

/-- One `insert` on a well-formed root: adds exactly the fresh key `k` to the
leaf chain and keeps the tree well-formed; the crash-aware model `insertM`
completes normally with the same tree. -/
theorem insert_spec {t : Nat} (ht : 2 ≤ t) (k : Int) (x : BNode)
    (hw : wf t x none none = true) (hfresh : k ∉ chainKeys x) :
    (chainKeys (insert t k x)).Perm (k :: chainKeys x) ∧
    wf t (insert t k x) none none = true ∧
    insertM t k x = .ok (insert t k x) := by
  by_cases hfull : (keysOf x).length = 2*t - 1
  · rw [insert_eq_full t k x hfull, insertM_eq_full t k x hfull]
    have hseq0 : wfSeq t [x] [] none none = true := by
      rw [wfSeq_single]
      exact ⟨hw, rfl⟩
    have h0 : (0 : Nat) < ([x] : List BNode).length := by simp
    have hfull0 : (keysOf (([x] : List BNode).getD 0 (.leaf []))).length = 2*t - 1 := by
      simpa using hfull
    obtain ⟨hspw, hspc⟩ := wfSeq_split ht hseq0 h0 hfull0
    have hp1len : (splitChild t [] [x] 0).1.length = 1 := by
      rw [splitChild_eq, length_insAt]
      simp
    have hwroot : wf t (.node (splitChild t [] [x] 0).1 (splitChild t [] [x] 0).2)
        none none = true := by
      rw [wf_node_iff]
      refine ⟨?_, by omega, hspw⟩
      intro hc
      rw [hc] at hp1len
      simp at hp1len
    have hnotfull : (keysOf (BNode.node (splitChild t [] [x] 0).1
        (splitChild t [] [x] 0).2)).length ≠ 2*t - 1 := by
      simp only [keysOf]
      omega
    have hchain : chainKeys (BNode.node (splitChild t [] [x] 0).1
        (splitChild t [] [x] 0).2) = chainKeys x := by
      rw [chainKeys_node, hspc]
      simp
    have hres := insertNonFull_spec ht
      (heightB (BNode.node (splitChild t [] [x] 0).1 (splitChild t [] [x] 0).2) + 1)
      k (BNode.node (splitChild t [] [x] 0).1 (splitChild t [] [x] 0).2) none none
      hwroot hnotfull rfl rfl (hchain ▸ hfresh) (by omega)
    rw [hchain] at hres
    exact hres
  · rw [insert_eq_notfull t k x hfull, insertM_eq_notfull t k x hfull]
    exact insertNonFull_spec ht (heightB x + 1) k x none none hw hfull rfl rfl
      hfresh (by omega)

theorem wf_empty (t : Nat) : wf t (.leaf []) none none = true := by
  rw [wf_leaf_iff]
  exact ⟨rfl, rfl, by simp⟩

/-- Folding `insert` over a duplicate-free list starting from the empty tree:
the final tree is well-formed and its leaf chain is a permutation of the
inserted keys. -/
theorem insertAll_spec {t : Nat} (ht : 2 ≤ t) (ks : List Int) (hnd : ks.Nodup) :
    wf t (insertAll t ks (.leaf [])) none none = true ∧
    (chainKeys (insertAll t ks (.leaf []))).Perm ks := by
  suffices h : ∀ (ks : List Int) (acc : BNode) (done : List Int),
      wf t acc none none = true → (chainKeys acc).Perm done →
      (∀ k ∈ ks, k ∉ done) → ks.Nodup →
      wf t (insertAll t ks acc) none none = true ∧
      (chainKeys (insertAll t ks acc)).Perm (done ++ ks) by
    have := h ks (.leaf []) [] (wf_empty t) (by simp) (by simp) hnd
    simpa using this
  intro ks
  induction ks with
  | nil =>
    intro acc done hw hp hfr hnd2
    refine ⟨hw, by simpa using hp⟩
  | cons k ks ih =>
    intro acc done hw hp hfr hnd2
    have hfreshk : k ∉ chainKeys acc := by
      intro hm
      exact hfr k (by simp) (hp.mem_iff.mp hm)
    obtain ⟨hp1, hw1, _⟩ := insert_spec ht k acc hw hfreshk
    have hstep : insertAll t (k :: ks) acc = insertAll t ks (insert t k acc) := rfl
    rw [hstep]
    have hfr' : ∀ k2 ∈ ks, k2 ∉ (k :: done) := by
      intro k2 hk2 hmem
      rcases List.mem_cons.mp hmem with rfl | hmem'
      · exact (List.nodup_cons.mp hnd2).1 hk2
      · exact hfr k2 (by simp [hk2]) hmem'
    have hp' : (chainKeys (insert t k acc)).Perm (k :: done) :=
      hp1.trans (hp.cons k)
    obtain ⟨hwf2, hperm2⟩ := ih (insert t k acc) (k :: done) hw1 hp' hfr'
      (List.nodup_cons.mp hnd2).2
    refine ⟨hwf2, hperm2.trans ?_⟩
    have he : (k :: done) ++ ks = k :: (done ++ ks) := rfl
    rw [he]
    exact List.perm_middle.symm

theorem rangeScan_all {lo hi : Int} :
    ∀ {l : List Int}, (∀ a ∈ l, lo ≤ a ∧ a ≤ hi) → rangeScan lo hi l = l := by
  intro l
  induction l with
  | nil => intro _; rfl
  | cons a l ih =>
    intro h
    have ha := h a (by simp)
    rw [rangeScan, if_pos ⟨ha.1, ha.2⟩, ih (fun b hb => h b (by simp [hb]))]

/-- If the query key is at or below every stored key (and hence at or below
every routing key, since those are copies of stored keys), `_find_leaf`
reaches the leftmost leaf. -/
theorem findLeafPos_zero {t : Nat} (lo' : Int) (x : BNode) :
    ∀ lo hi, wf t x lo hi = true → (∀ a ∈ chainKeys x, lo' ≤ a) →
    findLeafPos lo' x = 0 := by
  induction x using BNode.ind with
  | hleaf ks => intro lo hi _ _; rfl
  | hnode ks cs ihm =>
    intro lo hi hw hb
    rw [wf_node_iff] at hw
    obtain ⟨hne, hlen, hseq⟩ := hw
    rw [chainKeys_node] at hb
    have hscan : leftScan lo' ks = 0 := by
      refine leftScan_eq_zero ?_
      intro a ha
      exact hb a (wfSeq_keys_facts hseq a ha).1
    rw [findLeafPos, hscan]
    cases cs with
    | nil => rfl
    | cons c cs' =>
      rw [findLeafPosL]
      have hget := wfSeq_get hseq (j := 0) (by simp)
      have hc := hget.1
      have hcmem : ∀ a ∈ chainKeys c, lo' ≤ a := by
        intro a ha
        exact hb a (by rw [chainSeq_cons]; exact List.mem_append_left _ ha)
      exact ihm c (by simp) _ _ (by simpa using hc) hcmem

theorem range_query_full {t : Nat} (x : BNode) (hw : wf t x none none = true)
    (lo hi : Int) (hb : ∀ a ∈ chainKeys x, lo ≤ a ∧ a ≤ hi) :
    range_query lo hi x = chainKeys x := by
  unfold range_query
  rw [findLeafPos_zero lo x none none hw (fun a ha => (hb a ha).1), List.drop_zero]
  exact rangeScan_all hb


/-! ### Claim theorems -/

/-- C1: for every finite set of distinct keys, inserting all of them (in any
order) into a freshly constructed index with minimum degree `t ≥ 2` and then
calling `range_query` with a lower bound at or below the minimum key and an
upper bound at or above the maximum key returns exactly those keys in
strictly ascending order — none missing, none duplicated (the result is a
permutation of the inserted keys and strictly increasing). -/
theorem c1_insert_range_query_roundtrip (t : Nat) (ht : 2 ≤ t) (ks : List Int)
    (hnd : ks.Nodup) (lo hi : Int) (hb : ∀ k ∈ ks, lo ≤ k ∧ k ≤ hi) :
    (range_query lo hi (insertAll t ks (.leaf []))).Perm ks ∧
    (range_query lo hi (insertAll t ks (.leaf []))).Chain' (· < ·) := by
  obtain ⟨hw, hperm⟩ := insertAll_spec ht ks hnd
  have hb' : ∀ a ∈ chainKeys (insertAll t ks (.leaf [])), lo ≤ a ∧ a ≤ hi :=
    fun a ha => hb a (hperm.mem_iff.mp ha)
  rw [range_query_full _ hw lo hi hb']
  exact ⟨hperm, ((wf_chain _ _ _ hw).1).chain'⟩

/-- Witness for C1 at `t = 2`, keys `[3, 1, 2]`, bounds `[1, 3]`. -/
theorem c1_insert_range_query_roundtrip_witness :
    (range_query 1 3 (insertAll 2 [3, 1, 2] (.leaf []))).Perm [3, 1, 2] ∧
    (range_query 1 3 (insertAll 2 [3, 1, 2] (.leaf []))).Chain' (· < ·) :=
  c1_insert_range_query_roundtrip 2 (by omega) [3, 1, 2] (by decide) 1 3 (by decide)

/-- C2 is refuted on the code: with `t = 2`, run insert 1, insert 2,
insert 3, insert 4, delete 3, delete 1, delete 2 — `runOk` certifies that
every operation completes normally (no `IndexError`, inserts and deletes in
the crash-aware models).  The currently-present keys (inserted and not
subsequently deleted) are exactly `[4]`, yet the left-to-right leaf chain of
the final tree is `[2, 4]`: it still yields the deleted key 2 (`_merge`
re-appended the parent separator, a copy of 2, into the merged leaf before
the leaf copy of 2 was removed), so the chain does not yield exactly the
present keys. -/
theorem c2_chain_contains_deleted_key :
    runOk 2 [Op.ins 1, Op.ins 2, Op.ins 3, Op.ins 4, Op.del 3, Op.del 1,
      Op.del 2] (.leaf []) = true ∧
    presentKeys [Op.ins 1, Op.ins 2, Op.ins 3, Op.ins 4, Op.del 3, Op.del 1,
      Op.del 2] = [4] ∧
    chainKeys (runOps 2 [Op.ins 1, Op.ins 2, Op.ins 3, Op.ins 4, Op.del 3,
      Op.del 1, Op.del 2] (.leaf [])) = [2, 4] ∧
    2 ∈ chainKeys (runOps 2 [Op.ins 1, Op.ins 2, Op.ins 3, Op.ins 4, Op.del 3,
      Op.del 1, Op.del 2] (.leaf [])) ∧
    2 ∉ presentKeys [Op.ins 1, Op.ins 2, Op.ins 3, Op.ins 4, Op.del 3,
      Op.del 1, Op.del 2] := by
  decide

/-- C3 is refuted on the code: with `t = 2`, insert 1..5, delete 4, delete 5,
then delete 9 (an absent key, which triggers `_borrow_from_prev` and moves
the key 2 to the right of the separator copy of 2).  The key 2 was inserted
and never deleted and is still stored in a leaf, yet `search` reports
not-found. -/
theorem c3_search_misses_present_key :
    (delete 2 (insertAll 2 [1, 2, 3, 4, 5] (.leaf [])) 4).isOk = true ∧
    (delete 2 (delStep 2 (insertAll 2 [1, 2, 3, 4, 5] (.leaf [])) 4) 5).isOk = true ∧
    (delete 2 (delStep 2 (delStep 2 (insertAll 2 [1, 2, 3, 4, 5] (.leaf [])) 4) 5)
      9).isOk = true ∧
    (search 2 (delStep 2 (delStep 2 (delStep 2
      (insertAll 2 [1, 2, 3, 4, 5] (.leaf [])) 4) 5) 9)).isSome = false ∧
    2 ∈ chainKeys (delStep 2 (delStep 2 (delStep 2
      (insertAll 2 [1, 2, 3, 4, 5] (.leaf [])) 4) 5) 9) := by
  decide

/-- C4 is refuted on the code by inserts alone: with `t = 2`, after inserting
1..9 the root's first child is an internal node with 2 keys and only 2
children (`_split_child` keeps the promoted median in the left internal
node, so key count + 1 = child count fails). -/
theorem c4_internal_child_count_violated :
    nodesOk (insertAll 2 [1, 2, 3, 4, 5, 6, 7, 8, 9] (.leaf [])) = false ∧
    (keysOf ((childrenOf (insertAll 2 [1, 2, 3, 4, 5, 6, 7, 8, 9] (.leaf []))).getD 0
      (.leaf []))).length = 2 ∧
    (childrenOf ((childrenOf (insertAll 2 [1, 2, 3, 4, 5, 6, 7, 8, 9]
      (.leaf []))).getD 0 (.leaf []))).length = 2 := by
  decide

/-- C5 as stated is false at `t = 2` on the full leaf `[1, 2, 3]`: the split
leaves `[1, 2]` (t = 2 keys, not t-1 = 1) in the original node, and the
promoted key 2 is a copy of the original node's last key, not of the new
sibling's first key 3. -/
theorem c5_split_counterexample :
    (splitChild 2 [] [.leaf [1, 2, 3]] 0).1 = [2] ∧
    ((splitChild 2 [] [.leaf [1, 2, 3]] 0).2.map keysOf) = [[1, 2], [3]] ∧
    ¬ (((splitChild 2 [] [.leaf [1, 2, 3]] 0).2.map keysOf).getD 0 []).length = 2 - 1 ∧
    ¬ ((splitChild 2 [] [.leaf [1, 2, 3]] 0).1.getD 0 0 =
        (((splitChild 2 [] [.leaf [1, 2, 3]] 0).2.map keysOf).getD 1 []).getD 0 0) := by
  decide

theorem insAt_set_split {cs : List α} {i : Nat} (h : i < cs.length) (u v : α) :
    insAt (i+1) v (cs.set i u) = cs.take i ++ u :: v :: cs.drop (i+1) := by
  induction cs generalizing i with
  | nil => simp at h
  | cons c cs ih =>
    cases i with
    | zero => simp [insAt]
    | succ i => simpa [insAt] using ih (by simpa using h)

/-- The two halves made by `_split_child` carry exactly the leaf keys of the
original child, in order — for a leaf child and for an internal child. -/
theorem chain_splitLR (t : Nat) (y : BNode) :
    chainKeys (splitL t y) ++ chainKeys (splitR t y) = chainKeys y := by
  cases y with
  | leaf ks => simp [splitL, splitR]
  | node ks cs =>
    simp only [splitL, splitR, chainKeys_node]
    rw [← chainSeq_append, List.take_append_drop]

/-- C5 (amended): when `_split_child` splits a full child `y` holding `2t-1`
keys — leaf or internal alike — a copy of the median key `y.keys[t-1]` is
promoted into the parent at index `i`, but the original node keeps the `t`
keys `y.keys[:t]` (and, if internal, the children `y.children[:t]`) — the
promoted key remains the original node's last key — while only the `t-1`
keys `y.keys[t:]` (and the children `y.children[t:]`) move to the newly
created right sibling of the same kind, inserted immediately to the
original's right; no key is removed from any leaf (the leaf keys under the
child list are unchanged). -/
theorem c5_split_behavior (t : Nat) (ht : 2 ≤ t) (ks : List Int)
    (cs : List BNode) (i : Nat) (hilen : i < cs.length) (y : BNode)
    (hy : cs.getD i (.leaf []) = y)
    (hfull : (keysOf y).length = 2*t - 1) :
    (splitChild t ks cs i).1 = insAt i ((keysOf y).getD (t-1) 0) ks ∧
    (splitChild t ks cs i).2 =
      cs.take i ++ splitL t y :: splitR t y :: cs.drop (i+1) ∧
    keysOf (splitL t y) = (keysOf y).take t ∧
    keysOf (splitR t y) = (keysOf y).drop t ∧
    childrenOf (splitL t y) = (childrenOf y).take t ∧
    childrenOf (splitR t y) = (childrenOf y).drop t ∧
    isLeaf (splitL t y) = isLeaf y ∧
    isLeaf (splitR t y) = isLeaf y ∧
    (keysOf (splitL t y)).length = t ∧
    (keysOf (splitR t y)).length = t - 1 ∧
    (keysOf (splitL t y)).getD (t-1) 0 = (keysOf y).getD (t-1) 0 ∧
    chainSeq (splitChild t ks cs i).2 = chainSeq cs := by
  have hp := splitChild_eq t ks cs i
  rw [hy] at hp
  have hkl : keysOf (splitL t y) = (keysOf y).take t := by
    cases y <;> simp [splitL, keysOf]
  have hkr : keysOf (splitR t y) = (keysOf y).drop t := by
    cases y <;> simp [splitR, keysOf]
  have hcl : childrenOf (splitL t y) = (childrenOf y).take t := by
    cases y <;> simp [splitL, childrenOf]
  have hcr : childrenOf (splitR t y) = (childrenOf y).drop t := by
    cases y <;> simp [splitR, childrenOf]
  have hll : isLeaf (splitL t y) = isLeaf y := by cases y <;> rfl
  have hlr : isLeaf (splitR t y) = isLeaf y := by cases y <;> rfl
  have hch : (splitChild t ks cs i).2 =
      cs.take i ++ splitL t y :: splitR t y :: cs.drop (i+1) := by
    rw [hp, insAt_set_split hilen]
  refine ⟨by rw [hp], hch, hkl, hkr, hcl, hcr, hll, hlr, ?_, ?_, ?_, ?_⟩
  · rw [hkl, List.length_take]; omega
  · rw [hkr, List.length_drop]; omega
  · rw [hkl]; exact getD_take 0 (by omega)
  · rw [hch, chainSeq_append, chainSeq_cons, chainSeq_cons,
      chainSeq_decomp cs hilen, hy, ← chain_splitLR t y]
    simp [List.append_assoc]

/-- Witness for C5's amended statement at `t = 2` on the full internal child
`[10, 20, 30]` over four leaves: the original keeps keys `[10, 20]` and two
children, the sibling gets key `[30]` and the other two children, and the
promoted key 20 is the original's last key. -/
theorem c5_split_behavior_witness :
    (splitChild 2 [] [BNode.node [10, 20, 30]
      [.leaf [5, 10], .leaf [15, 20], .leaf [25, 30], .leaf [35]]] 0).1 =
      insAt 0 ((keysOf (BNode.node [10, 20, 30]
        [.leaf [5, 10], .leaf [15, 20], .leaf [25, 30], .leaf [35]])).getD
        (2-1) 0) [] ∧
    (splitChild 2 [] [BNode.node [10, 20, 30]
      [.leaf [5, 10], .leaf [15, 20], .leaf [25, 30], .leaf [35]]] 0).2 =
      ([BNode.node [10, 20, 30]
        [.leaf [5, 10], .leaf [15, 20], .leaf [25, 30], .leaf [35]]] :
          List BNode).take 0 ++
        splitL 2 (BNode.node [10, 20, 30]
          [.leaf [5, 10], .leaf [15, 20], .leaf [25, 30], .leaf [35]]) ::
        splitR 2 (BNode.node [10, 20, 30]
          [.leaf [5, 10], .leaf [15, 20], .leaf [25, 30], .leaf [35]]) ::
        ([BNode.node [10, 20, 30]
          [.leaf [5, 10], .leaf [15, 20], .leaf [25, 30], .leaf [35]]] :
            List BNode).drop 1 ∧
    keysOf (splitL 2 (BNode.node [10, 20, 30]
      [.leaf [5, 10], .leaf [15, 20], .leaf [25, 30], .leaf [35]])) =
      (keysOf (BNode.node [10, 20, 30]
        [.leaf [5, 10], .leaf [15, 20], .leaf [25, 30], .leaf [35]])).take 2 ∧
    keysOf (splitR 2 (BNode.node [10, 20, 30]
      [.leaf [5, 10], .leaf [15, 20], .leaf [25, 30], .leaf [35]])) =
      (keysOf (BNode.node [10, 20, 30]
        [.leaf [5, 10], .leaf [15, 20], .leaf [25, 30], .leaf [35]])).drop 2 ∧
    childrenOf (splitL 2 (BNode.node [10, 20, 30]
      [.leaf [5, 10], .leaf [15, 20], .leaf [25, 30], .leaf [35]])) =
      (childrenOf (BNode.node [10, 20, 30]
        [.leaf [5, 10], .leaf [15, 20], .leaf [25, 30], .leaf [35]])).take 2 ∧
    childrenOf (splitR 2 (BNode.node [10, 20, 30]
      [.leaf [5, 10], .leaf [15, 20], .leaf [25, 30], .leaf [35]])) =
      (childrenOf (BNode.node [10, 20, 30]
        [.leaf [5, 10], .leaf [15, 20], .leaf [25, 30], .leaf [35]])).drop 2 ∧
    isLeaf (splitL 2 (BNode.node [10, 20, 30]
      [.leaf [5, 10], .leaf [15, 20], .leaf [25, 30], .leaf [35]])) =
      isLeaf (BNode.node [10, 20, 30]
        [.leaf [5, 10], .leaf [15, 20], .leaf [25, 30], .leaf [35]]) ∧
    isLeaf (splitR 2 (BNode.node [10, 20, 30]
      [.leaf [5, 10], .leaf [15, 20], .leaf [25, 30], .leaf [35]])) =
      isLeaf (BNode.node [10, 20, 30]
        [.leaf [5, 10], .leaf [15, 20], .leaf [25, 30], .leaf [35]]) ∧
    (keysOf (splitL 2 (BNode.node [10, 20, 30]
      [.leaf [5, 10], .leaf [15, 20], .leaf [25, 30], .leaf [35]]))).length = 2 ∧
    (keysOf (splitR 2 (BNode.node [10, 20, 30]
      [.leaf [5, 10], .leaf [15, 20], .leaf [25, 30], .leaf [35]]))).length =
      2 - 1 ∧
    (keysOf (splitL 2 (BNode.node [10, 20, 30]
      [.leaf [5, 10], .leaf [15, 20], .leaf [25, 30], .leaf [35]]))).getD
        (2-1) 0 =
      (keysOf (BNode.node [10, 20, 30]
        [.leaf [5, 10], .leaf [15, 20], .leaf [25, 30], .leaf [35]])).getD
        (2-1) 0 ∧
    chainSeq (splitChild 2 [] [BNode.node [10, 20, 30]
      [.leaf [5, 10], .leaf [15, 20], .leaf [25, 30], .leaf [35]]] 0).2 =
      chainSeq [BNode.node [10, 20, 30]
        [.leaf [5, 10], .leaf [15, 20], .leaf [25, 30], .leaf [35]]] :=
  c5_split_behavior 2 (by omega) []
    [BNode.node [10, 20, 30]
      [.leaf [5, 10], .leaf [15, 20], .leaf [25, 30], .leaf [35]]] 0
    (by simp)
    (BNode.node [10, 20, 30]
      [.leaf [5, 10], .leaf [15, 20], .leaf [25, 30], .leaf [35]])
    rfl (by decide)

/-- C6's "leaf merge simply concatenates without the separator" is false:
`_merge` with parent separator 5 between leaves `[3, 5]` and `[8]` produces
the leaf `[3, 5, 5, 8]` (separator appended, duplicating the key 5), not
`[3, 5, 8]`. -/
theorem c6_merge_counterexample :
    (mergeAt [5] [.leaf [3, 5], .leaf [8]] 0).isSome = true ∧
    ((mergeAt [5] [.leaf [3, 5], .leaf [8]] 0).getD ([], [])).1 = [] ∧
    (((mergeAt [5] [.leaf [3, 5], .leaf [8]] 0).getD ([], [])).2.map keysOf) =
      [[3, 5, 5, 8]] ∧
    ¬ ((((mergeAt [5] [.leaf [3, 5], .leaf [8]] 0).getD ([], [])).2.map keysOf) =
      [[3, 5, 8]]) := by
  decide

theorem eraseIdx_set_splice {cs : List α} {i : Nat} (h : i + 1 < cs.length)
    (m : α) : (cs.set i m).eraseIdx (i+1) = cs.take i ++ m :: cs.drop (i+2) := by
  induction cs generalizing i with
  | nil => simp at h
  | cons c cs ih =>
    cases i with
    | zero =>
      simp only [List.set_cons_zero, List.eraseIdx_cons_succ, List.take_zero,
        List.nil_append, List.drop_succ_cons]
      cases cs with
      | nil => simp at h
      | cons c2 cs2 => simp [List.eraseIdx]
    | succ i =>
      simp only [List.set_cons_succ, List.eraseIdx_cons_succ, List.take_succ_cons,
        List.cons_append, List.drop_succ_cons]
      rw [ih (by simpa using h)]

/-- C6 (amended): `_merge(x, i)` always concatenates `children[i]`'s keys,
the parent separator `keys[i]`, and the right sibling's keys — for leaf
children exactly as for internal ones (there is no leaf case that omits the
separator); internal children additionally concatenate their child lists;
the parent loses the separator key and the sibling's child pointer, so the
sibling disappears and the chain is spliced past it. -/
theorem c6_merge_behavior (ks : List Int) (cs : List BNode) (i : Nat)
    (child sib : BNode) (sep : Int)
    (hc : cs.get? i = some child) (hs : cs.get? (i+1) = some sib)
    (hk : ks.get? i = some sep) :
    ∃ m, mergeAt ks cs i = some (ks.eraseIdx i, (cs.set i m).eraseIdx (i+1)) ∧
      keysOf m = keysOf child ++ sep :: keysOf sib ∧
      isLeaf m = isLeaf child ∧
      (isLeaf child = false → childrenOf m = childrenOf child ++ childrenOf sib) ∧
      (isLeaf child = true → childrenOf m = []) ∧
      (cs.set i m).eraseIdx (i+1) = cs.take i ++ m :: cs.drop (i+2) := by
  have hlen : i + 1 < cs.length := by
    rcases List.get?_eq_some.mp hs with ⟨hlt, _⟩
    exact hlt
  cases child with
  | leaf cks =>
    refine ⟨.leaf (cks ++ sep :: keysOf sib), ?_, rfl, rfl,
      by intro hcc; simp [isLeaf] at hcc, fun _ => rfl, eraseIdx_set_splice hlen _⟩
    unfold mergeAt
    rw [hc, hs, hk]
  | node cks ccs =>
    refine ⟨.node (cks ++ sep :: keysOf sib) (ccs ++ childrenOf sib), ?_, rfl, rfl,
      fun _ => rfl, by intro hcc; simp [isLeaf] at hcc, eraseIdx_set_splice hlen _⟩
    unfold mergeAt
    rw [hc, hs, hk]

/-- Witness for C6's amended statement: the leaf merge of `[3, 5]` and `[8]`
with parent separator 5. -/
theorem c6_merge_behavior_witness :
    ∃ m, mergeAt [5] [BNode.leaf [3, 5], BNode.leaf [8]] 0 =
        some (([5] : List Int).eraseIdx 0,
          (([BNode.leaf [3, 5], BNode.leaf [8]] : List BNode).set 0 m).eraseIdx 1) ∧
      keysOf m = keysOf (BNode.leaf [3, 5]) ++ 5 :: keysOf (BNode.leaf [8]) ∧
      isLeaf m = isLeaf (BNode.leaf [3, 5]) ∧
      (isLeaf (BNode.leaf [3, 5]) = false →
        childrenOf m = childrenOf (BNode.leaf [3, 5]) ++ childrenOf (BNode.leaf [8])) ∧
      (isLeaf (BNode.leaf [3, 5]) = true → childrenOf m = []) ∧
      (([BNode.leaf [3, 5], BNode.leaf [8]] : List BNode).set 0 m).eraseIdx 1 =
        ([BNode.leaf [3, 5], BNode.leaf [8]] : List BNode).take 0 ++
          m :: ([BNode.leaf [3, 5], BNode.leaf [8]] : List BNode).drop 2 :=
  c6_merge_behavior [5] [BNode.leaf [3, 5], BNode.leaf [8]] 0
    (BNode.leaf [3, 5]) (BNode.leaf [8]) 5 rfl rfl rfl

/-- C7: the spec's concrete scenario holds on the code: with `t = 2`, after
inserting 10, 20, 5, 6, 12, 30, 7, 17 in that order, `range_query(6, 17)`
returns `[6, 7, 10, 12, 17]`; after then deleting 6 (which completes
normally), the same query returns `[7, 10, 12, 17]`. -/
theorem c7_concrete_scenario :
    range_query 6 17 (insertAll 2 [10, 20, 5, 6, 12, 30, 7, 17] (.leaf [])) =
      [6, 7, 10, 12, 17] ∧
    (delete 2 (insertAll 2 [10, 20, 5, 6, 12, 30, 7, 17] (.leaf [])) 6).isOk = true ∧
    range_query 6 17 (delStep 2
      (insertAll 2 [10, 20, 5, 6, 12, 30, 7, 17] (.leaf [])) 6) = [7, 10, 12, 17] := by
  decide

/-- C8 is refuted on the code: the index reached from inserts 1, 2, 3, 4 and
deletes 3, 1 (`t = 2`; root `[2]` over leaves `[2]`, `[4]`) satisfies all
structural invariants (well-formedness, child counts, minimum fill, equal
leaf depth, sorted duplicate-free chain) and does not contain 9, yet
`delete(9)` raises `IndexError` (the last-child branch merges at `i-1` and
then reads `children[i]`, which is now out of range) instead of being a
no-op. -/
theorem c8_delete_absent_key_crashes :
    (delete 2 (insertAll 2 [1, 2, 3, 4] (.leaf [])) 3).isOk = true ∧
    (delete 2 (delStep 2 (insertAll 2 [1, 2, 3, 4] (.leaf [])) 3) 1).isOk = true ∧
    wf 2 (delStep 2 (delStep 2 (insertAll 2 [1, 2, 3, 4] (.leaf [])) 3) 1)
      none none = true ∧
    nodesOk (delStep 2 (delStep 2 (insertAll 2 [1, 2, 3, 4] (.leaf [])) 3) 1) = true ∧
    minFillRoot 2 (delStep 2 (delStep 2 (insertAll 2 [1, 2, 3, 4] (.leaf [])) 3) 1)
      = true ∧
    depthsOk (delStep 2 (delStep 2 (insertAll 2 [1, 2, 3, 4] (.leaf [])) 3) 1) = true ∧
    sortedLt (chainKeys (delStep 2 (delStep 2
      (insertAll 2 [1, 2, 3, 4] (.leaf [])) 3) 1)) = true ∧
    9 ∉ chainKeys (delStep 2 (delStep 2 (insertAll 2 [1, 2, 3, 4] (.leaf [])) 3) 1) ∧
    (delete 2 (delStep 2 (delStep 2 (insertAll 2 [1, 2, 3, 4] (.leaf [])) 3) 1)
      9).isCrash = true := by
  decide

/-- C9 as stated is false: constructing with `t = 1 < 2` does not fail — the
constructor stores `t` unvalidated and returns an empty index, while the
spec-modelled validating constructor rejects it. -/
theorem c9_constructor_counterexample :
    (new 1).t = 1 ∧ isLeaf (new 1).root = true ∧ keysOf (new 1).root = [] ∧
    (newSpec 1).isNone = true := by
  decide

/-- C9 (amended): construction never fails for any `t` (no validation is
performed): it produces an empty index — a leaf root with no keys — whose
minimum degree is `t`, including for `t < 2`. -/
theorem c9_constructor_behavior (t : Nat) :
    (new t).t = t ∧ isLeaf (new t).root = true ∧ keysOf (new t).root = [] :=
  ⟨rfl, rfl, rfl⟩

/-- C10 as stated is false: on the `t = 2` index built by inserting 1..12
(12 leaf keys), re-inserting the already-present key 8 (the median of the
full internal child `[6, 8, 10]` that gets split during the descent) does
not increase the leaf key count by one: the Python code raises `IndexError`
at the out-of-range child access `x.children[2]` in `_insert_non_full` (the
kept left half `[6, 8]` has only 2 children) — the crash-aware insertion
model returns `crash` — and nothing is stored. -/
theorem c10_insert_counterexample :
    (chainKeys (insertAll 2 [1, 2, 3, 4, 5, 6, 7, 8, 9, 10, 11, 12]
      (.leaf []))).length = 12 ∧
    (insertM 2 8 (insertAll 2 [1, 2, 3, 4, 5, 6, 7, 8, 9, 10, 11, 12]
      (.leaf []))).isCrash = true := by
  decide

/-- C10 (amended): `insert` never checks for presence.  For every
structurally well-formed index and every key not already stored the
insertion completes normally — the crash-aware model returns `ok` — and it
adds exactly one copy of the key to the leaves; inserting a key equal to an
existing one performs no check either and can store a second copy (as on the
one-leaf index `[5]`), though for some indexes it instead raises an
`IndexError` and stores nothing. -/
theorem c10_insert_behavior :
    (∀ t : Nat, 2 ≤ t → ∀ x : BNode, wf t x none none = true → ∀ k : Int,
      k ∉ chainKeys x →
      insertM t k x = DRes.ok (insert t k x) ∧
      (chainKeys (insert t k x)).Perm (k :: chainKeys x)) ∧
    (insertM 2 5 (.leaf [5])).isOk = true ∧
    chainKeys (insStep 2 5 (.leaf [5])) = [5, 5] := by
  refine ⟨?_, by decide, by decide⟩
  intro t ht x hw k hf
  obtain ⟨h1, _, h3⟩ := insert_spec ht k x hw hf
  exact ⟨h3, h1⟩

/-- Witness for C10's amended statement: inserting the fresh key 7 into the
one-leaf index `[5]` completes normally and yields a chain that is a
permutation of `7 :: [5]`. -/
theorem c10_insert_behavior_witness :
    insertM 2 7 (.leaf [5]) = DRes.ok (insert 2 7 (.leaf [5])) ∧
    (chainKeys (insert 2 7 (.leaf [5]))).Perm (7 :: chainKeys (.leaf [5])) :=
  c10_insert_behavior.1 2 (by omega) (.leaf [5]) (by decide) 7 (by decide)

end BPT
